import Mathlib

/-!
# Verification of the schema-compatibility diff engine

Shallow embedding of `collectBreakingChanges` from the repository's
pre-commit schema-compatibility checker (src/unnamed/part_000, lines
144-300), together with proofs settling the frozen claims about it.

Modelling conventions, stated once here:

* Parsed JSON documents are modelled by the inductive type `JValue`:
  objects are association lists in insertion order, arrays are lists,
  numbers are integers (no claim depends on fractional values), strings
  are Lean strings.  `JSON.parse` output has pairwise-distinct keys in
  every object; where a proof needs this, it takes an explicit
  no-duplicate-keys hypothesis rather than baking it into the type.
* The JS expression `oldSchema.type !== newSchema.type` compares
  object/array values by reference.  The engine is always invoked on two
  trees produced by two independent `JSON.parse` calls (`git show HEAD:f`
  versus `git show :f`), so two composite values on opposite sides are
  never reference-equal; primitives compare by value.  `jsStrictEq`
  models exactly this.
* The JS `in` operator of rule 4 (`key in newProps`) reports own keys
  plus the inherited members of `Object.prototype` (`PROTO_KEYS`); every
  other containment test of the source is `hasOwnProperty`, an own-key
  lookup.  When `key in newProps` holds only by inheritance, the source
  recurses with the inherited value as the new-side node: a built-in
  function for every member except `__proto__`, and `Object.prototype`
  itself for the `__proto__` accessor.  A built-in function as the
  new-side node is treated by every rule exactly as `null` is — it is
  not `isObject`, it owns none of the tested keywords, and
  `f.type`, `f.required`, `f.additionalProperties` are all `undefined` —
  so that recursion is written `recur old jnull`; `Object.prototype`
  itself, which *is* `isObject` and owns exactly the `PROTO_KEYS`, gets
  the dedicated mode `cbcProtoF`, in which rule 5 runs and compares old
  keywords against the inherited built-ins (whose `JSON.stringify` is
  `undefined`) and against `Object.prototype.__proto__`, which is
  `null`.  `JSON.parse` creates a `"__proto__"` key with
  `CreateDataProperty`, so when present it is an ordinary own key.
* Property access on a non-object (`(5).type`, `"x".required`) yields
  `undefined` in JS; `getField` returns `none` in those cases, and
  absent values are `Option.none` throughout (`JSON.stringify(undefined)`
  is the non-string value `undefined`, modelled as `none`).
* `Object.keys` enumerates integer-like keys first; schema keyword maps
  have no integer-like keys in any claim, and no claim here depends on
  the order of the finding sequence, so iteration is modelled in
  insertion order.  Rule 5 iterates `Object.keys(oldSchema)` and indexes
  `oldSchema[key]`; for a parsed object (distinct keys) this is the same
  as iterating the entries, which is how it is modelled.
* The engine's recursion is driven purely by the old-side tree, so it is
  written with an explicit fuel parameter (structural recursion on
  `Nat`, keeping the definition computable by the kernel) and a wrapper
  applying it at fuel `jsize old`; a fuel-irrelevance lemma shows any
  fuel at or above `jsize old` gives the same result, so the fuel is an
  implementation artifact, and the wrapper equals the literal recursive
  equation of the source (`collectBreakingChanges_eq`), witnessing that
  the JS function terminates on every input.
-/

set_option maxHeartbeats 1000000

/-- A parsed JSON value: the SchemaNode data model of the spec. -/
inductive JValue where
  | jnull : JValue
  | jbool : Bool → JValue
  | jnum : Int → JValue
  | jstr : String → JValue
  | jarr : List JValue → JValue
  | jobj : List (String × JValue) → JValue

namespace SchemaDiff

open JValue

mutual

/-- Size measure used as recursion fuel for the engine. -/
def jsize : JValue → Nat
  | jnull => 1
  | jbool _ => 1
  | jnum _ => 1
  | jstr _ => 1
  | jarr xs => 1 + jsizeA xs
  | jobj fs => 1 + jsizeO fs

def jsizeA : List JValue → Nat
  | [] => 0
  | x :: xs => jsize x + jsizeA xs

def jsizeO : List (String × JValue) → Nat
  | [] => 0
  | kv :: fs => jsize kv.2 + jsizeO fs

end

/-- First-match association-list lookup: `obj[key]` on a parsed object. -/
def assocGet : List (String × JValue) → String → Option JValue
  | [], _ => none
  | kv :: rest, k => if kv.1 = k then some kv.2 else assocGet rest k

/-- The `hasOwnProperty` test on an association list. -/
def hasKeyB : List (String × JValue) → String → Bool
  | [], _ => false
  | kv :: rest, k => if kv.1 = k then true else hasKeyB rest k

/-- All keys of the association list are pairwise distinct
(always true for `JSON.parse` output). -/
def nodupKeysB : List (String × JValue) → Bool
  | [] => true
  | kv :: rest => !hasKeyB rest kv.1 && nodupKeysB rest

/-- Sequenced concatenation of per-element outputs: models the loop
`for (x of l) reasons.push(...f(x))`. -/
def listFlat : List α → (α → List β) → List β
  | [], _ => []
  | x :: xs, f => f x ++ listFlat xs f

/-- Predicate `isObject(v)`: non-null, `typeof === "object"`, not an array
(src/unnamed/part_000 lines 168-170). -/
def isObject : JValue → Bool
  | jobj _ => true
  | _ => false

/-- Property access `v[key]`; `none` models `undefined` (absent key, or
access on a non-object). -/
def getField : JValue → String → Option JValue
  | jobj fs, k => assocGet fs k
  | _, _ => none

/-- JS truthiness of a parsed JSON value. -/
def truthy : JValue → Bool
  | jnull => false
  | jbool b => b
  | jnum n => !(n == 0)
  | jstr s => !(s == "")
  | jarr _ => true
  | jobj _ => true

/-- The value is a JSON primitive (null, boolean, number or string). -/
def primV : JValue → Bool
  | jnull => true
  | jbool _ => true
  | jnum _ => true
  | jstr _ => true
  | jarr _ => false
  | jobj _ => false

/-- JS strict equality `===` between a value of the old document tree
and a value of the new document tree.  The two trees come from two
independent `JSON.parse` calls, so composite values (objects, arrays)
on opposite sides are never reference-equal; primitives compare by
value, without coercion. -/
def jsStrictEq : JValue → JValue → Bool
  | jnull, jnull => true
  | jbool a, jbool b => a == b
  | jnum a, jnum b => a == b
  | jstr a, jstr b => a == b
  | _, _ => false

/-- Model of `Array.prototype.includes` (SameValueZero, which coincides with
`===` on parsed JSON values). -/
def jsIncludes (l : List JValue) (x : JValue) : Bool :=
  l.any (fun y => jsStrictEq y x)

/-- The constant `ANNOTATION_KEYS` (src/unnamed/part_000 lines 144-150): keywords
ignored by the comparison. -/
def ANNOTATION_KEYS : List String :=
  ["description", "title", "$id", "$comment", "examples"]

/-- Own property names of `Object.prototype` in Node: the keys that the
JS `in` operator reports for every plain object over and above its own
keys.  All their values are built-in functions except `__proto__`, an
accessor whose getter returns the object's prototype. -/
def PROTO_KEYS : List String :=
  ["constructor", "__defineGetter__", "__defineSetter__", "hasOwnProperty",
   "__lookupGetter__", "__lookupSetter__", "isPrototypeOf",
   "propertyIsEnumerable", "toString", "valueOf", "__proto__",
   "toLocaleString"]

/-- JSON string escaping as performed by `JSON.stringify`, per character. -/
def escapeChar (c : Char) : String :=
  if c = '"' then "\\\""
  else if c = '\\' then "\\\\"
  else if c = '\n' then "\\n"
  else if c = '\t' then "\\t"
  else if c = '\r' then "\\r"
  else if c = '\x08' then "\\b"
  else if c = '\x0c' then "\\f"
  else if c < ' ' then
    "\\u00" ++ (if c.toNat < 16 then "0" else "") ++
      (Nat.toDigits 16 c.toNat).asString
  else String.singleton c

/-- Serialization `JSON.stringify` of a string value. -/
def jsQuote (s : String) : String :=
  "\"" ++ String.join (s.data.map escapeChar) ++ "\""

mutual

/-- Serialization `JSON.stringify(v)` (no spacing argument), split into the value,
array-body and object-body cases. -/
def jstringify : JValue → String
  | jnull => "null"
  | jbool true => "true"
  | jbool false => "false"
  | jnum n => toString n
  | jstr s => jsQuote s
  | jarr xs => "[" ++ jstrA xs ++ "]"
  | jobj fs => "\x7b" ++ jstrO fs ++ "\x7d"

def jstrA : List JValue → String
  | [] => ""
  | [x] => jstringify x
  | x :: xs => jstringify x ++ "," ++ jstrA xs

def jstrO : List (String × JValue) → String
  | [] => ""
  | [kv] => jsQuote kv.1 ++ ":" ++ jstringify kv.2
  | kv :: fs => jsQuote kv.1 ++ ":" ++ jstringify kv.2 ++ "," ++ jstrO fs

end

mutual

/-- Model of `Array.prototype.toString`, that is `join(",")`: each element is rendered
by `arrElemStr`, where `null` (and `undefined`) render empty. -/
def arrJoin : List JValue → String
  | [] => ""
  | [x] => arrElemStr x
  | x :: xs => arrElemStr x ++ "," ++ arrJoin xs

def arrElemStr : JValue → String
  | jnull => ""
  | jbool true => "true"
  | jbool false => "false"
  | jnum n => toString n
  | jstr s => s
  | jarr ys => arrJoin ys
  | jobj _ => "[object Object]"

end

/-- JS `ToString` of a parsed JSON value, as used by template-literal
interpolation (note: a top-level `null` renders as "null", but a `null`
inside an array renders as the empty string). -/
def jsToString : JValue → String
  | jnull => "null"
  | jbool true => "true"
  | jbool false => "false"
  | jnum n => toString n
  | jstr s => s
  | jarr xs => arrJoin xs
  | jobj _ => "[object Object]"

/-- Rendering of `JSON.stringify(x)` inside a template literal:
`undefined` prints as "undefined". -/
def serStr : Option JValue → String
  | none => "undefined"
  | some v => jstringify v

/-- The display path: `path || "<root>"`. -/
def hereStr (path : String) : String := if path = "" then "<root>" else path

/-- Finding of rule 1. -/
def typeChangedMsg (here : String) (o n : JValue) : String :=
  here ++ ": type changed from \"" ++ jsToString o ++ "\" to \"" ++
    jsToString n ++ "\""

/-- Finding of rule 2. -/
def apChangedMsg (here : String) (o n : Option JValue) : String :=
  here ++ ": additionalProperties changed from " ++ serStr o ++ " to " ++
    serStr n

/-- Finding of rule 3. -/
def becameReqMsg (here : String) (p : JValue) : String :=
  here ++ ": property \"" ++ jsToString p ++ "\" became required"

/-- Finding of rule 4.1. -/
def removedPropMsg (here : String) (k : String) : String :=
  here ++ ": property \"" ++ k ++ "\" was removed"

/-- Keyword-removed finding of rule 5. -/
def removedKwMsg (here : String) (k : String) : String :=
  here ++ ": keyword \"" ++ k ++ "\" was removed"

/-- Array-changed finding of rule 5. -/
def arrChangedMsg (childPath : String) (o n : JValue) : String :=
  childPath ++ ": array value changed from " ++ jstringify o ++ " to " ++
    jstringify n

/-- Value-changed finding of rule 5. -/
def valChangedMsg (childPath : String) (o n : JValue) : String :=
  childPath ++ ": value changed from " ++ jstringify o ++ " to " ++
    jstringify n

/-- Value-changed finding of rule 5 with a pre-rendered new side: used
when the new value is an inherited built-in function, whose
`JSON.stringify` is the non-string value `undefined` and interpolates
as "undefined". -/
def valChangedMsgS (childPath o n : String) : String :=
  childPath ++ ": value changed from " ++ o ++ " to " ++ n

/-- The `oldProps`/`newProps` map of rule 4: the `properties` map when the node
is an object whose `properties` value is an object, otherwise empty
(`getField` already yields `none` on non-objects, which subsumes the
source's `isObject(schema)` guard). -/
def propsOf (v : JValue) : List (String × JValue) :=
  match getField v "properties" with
  | some (jobj ps) => ps
  | _ => []

/-- The `oldReq`/`newReq` list of rule 3: the `required` value when it is an
array, else `[]` (the source's `Array.isArray(schema && schema.required)`;
for falsy or non-object nodes the access yields `undefined`). -/
def reqListOf (v : JValue) : List JValue :=
  match getField v "required" with
  | some (jarr r) => r
  | _ => []

/-- The keywords handled by rules 1-4 and therefore skipped by rule 5. -/
def specialKey (k : String) : Bool :=
  if k = "type" then true
  else if k = "properties" then true
  else if k = "required" then true
  else if k = "additionalProperties" then true
  else false

/-- Path extension used by rule 4's recursion. -/
def propPath (path k : String) : String :=
  if path = "" then "properties." ++ k else path ++ ".properties." ++ k

/-- Path extension used by rule 5's recursion and value findings. -/
def kwPath (path k : String) : String :=
  if path = "" then k else path ++ "." ++ k

/-- The fields of an object node (empty for non-objects); the list that
rule 5 iterates over. -/
def fieldsOf : JValue → List (String × JValue)
  | jobj fs => fs
  | _ => []

/-- Rule 1 (src lines 184-191): both nodes truthy and both `type`
values truthy, and the strict comparison `!==` fails. -/
def rule1Seg (oldS newS : JValue) (path : String) : List String :=
  match getField oldS "type", getField newS "type" with
  | some oldT, some newT =>
    if truthy oldS && truthy newS && truthy oldT && truthy newT then
      if jsStrictEq oldT newT then []
      else [typeChangedMsg (hereStr path) oldT newT]
    else []
  | _, _ => []

/-- Rule 2 (src lines 193-209): either side owns `additionalProperties`
and the `JSON.stringify` serializations differ (`undefined` for an
absent side). -/
def rule2Seg (oldS newS : JValue) (path : String) : List String :=
  if (getField oldS "additionalProperties").isSome ||
      (getField newS "additionalProperties").isSome then
    if ((getField oldS "additionalProperties").map jstringify) =
        ((getField newS "additionalProperties").map jstringify) then []
    else
      [apChangedMsg (hereStr path) (getField oldS "additionalProperties")
        (getField newS "additionalProperties")]
  else []

/-- Rule 3 (src lines 211-223): every entry of the new `required` array
that `includes` does not find in the old one. -/
def rule3Seg (oldS newS : JValue) (path : String) : List String :=
  listFlat (reqListOf newS) (fun prop =>
    if jsIncludes (reqListOf oldS) prop then []
    else [becameReqMsg (hereStr path) prop])

/-- Rule 4 (src lines 225-247): removed properties are flagged, common
properties are compared recursively (`recur` is the engine itself).
The removal test is the JS `in` operator, so a property key that is a
member of `Object.prototype` is never reported removed when absent:
`newProps[key]` then yields the inherited member — a built-in function,
whose use as the new-side node is engine-equivalent to `null` (see the
header), or `Object.prototype` itself for the `__proto__` accessor,
handled by the dedicated recursion `recurP`. -/
def rule4Seg (recur : JValue → JValue → String → List String)
    (recurP : JValue → String → List String)
    (oldS newS : JValue) (path : String) : List String :=
  listFlat (propsOf oldS) (fun kv =>
    match assocGet (propsOf newS) kv.1 with
    | none =>
      if kv.1 ∈ PROTO_KEYS then
        if kv.1 = "__proto__" then recurP kv.2 (propPath path kv.1)
        else recur kv.2 jnull (propPath path kv.1)
      else [removedPropMsg (hereStr path) kv.1]
    | some w => recur kv.2 w (propPath path kv.1))

/-- Rule 5 (src lines 252-297): remaining old keywords — skipping the
four special keywords and the annotation keys — are flagged when absent
from the new node, compared recursively when both values are objects,
and otherwise compared by serialization. -/
def rule5Seg (recur : JValue → JValue → String → List String)
    (oldS newS : JValue) (path : String) : List String :=
  match oldS, newS with
  | jobj fs, jobj gs =>
    listFlat fs (fun kv =>
      if specialKey kv.1 then []
      else if kv.1 ∈ ANNOTATION_KEYS then []
      else
        match assocGet gs kv.1 with
        | none => [removedKwMsg (hereStr path) kv.1]
        | some w =>
          match kv.2, w with
          | jobj _, jobj _ => recur kv.2 w (kwPath path kv.1)
          | jarr _, jarr _ =>
            if jstringify kv.2 = jstringify w then []
            else [arrChangedMsg (kwPath path kv.1) kv.2 w]
          | _, _ =>
            if jstringify kv.2 = jstringify w then []
            else [valChangedMsg (kwPath path kv.1) kv.2 w])
  | _, _ => []

/-- Rule 5 of the source evaluated with `Object.prototype` as the new
node (reachable only through rule 4's `__proto__` inheritance):
`isObject(Object.prototype)` holds and its own keys are exactly the
`PROTO_KEYS`, so an old keyword outside that set is flagged removed,
and one inside it is compared against the inherited built-in function —
never an object or an array, so no recursion; its `JSON.stringify` is
`undefined`, so the comparison always differs — except `__proto__`,
whose getter applied to `Object.prototype` returns `null`. -/
def rule5ProtoSeg (oldS : JValue) (path : String) : List String :=
  match oldS with
  | jobj fs =>
    listFlat fs (fun kv =>
      if specialKey kv.1 then []
      else if kv.1 ∈ ANNOTATION_KEYS then []
      else if kv.1 ∈ PROTO_KEYS then
        if kv.1 = "__proto__" then
          if jstringify kv.2 = jstringify jnull then []
          else [valChangedMsg (kwPath path kv.1) kv.2 jnull]
        else [valChangedMsgS (kwPath path kv.1) (jstringify kv.2) "undefined"]
      else [removedKwMsg (hereStr path) kv.1])
  | _ => []

mutual

/-- The function `collectBreakingChanges(oldSchema, newSchema, path)`
(src/unnamed/part_000 lines 179-300), fuelled.  The body is the literal
sequence of the source's five numbered rule blocks; the fuel only pays
for recursive descent and is never exhausted at or above `jsize old`. -/
def cbcF : Nat → JValue → JValue → String → List String
  | 0, _, _, _ => []
  | f + 1, oldS, newS, path =>
    rule1Seg oldS newS path ++
      (rule2Seg oldS newS path ++
        (rule3Seg oldS newS path ++
          (rule4Seg (cbcF f) (cbcProtoF f) oldS newS path ++
            rule5Seg (cbcF f) oldS newS path)))

/-- The source's body evaluated with `Object.prototype` as `newSchema`.
Rule 1 contributes nothing (`Op.type` is `undefined`, hence falsy);
rule 2 behaves exactly as with a `null` new side (no own
`additionalProperties`, and the access yields `undefined`); rule 3
contributes nothing (`Op.required` is `undefined`, so `newReq` is
empty); rule 4 behaves exactly as with a `null` new side
(`Op.properties` is `undefined`, so `newProps` is `{}`); rule 5 runs —
`isObject(Op)` holds — against `Object.prototype`'s own keys
(`rule5ProtoSeg`). -/
def cbcProtoF : Nat → JValue → String → List String
  | 0, _, _ => []
  | f + 1, oldS, path =>
    rule2Seg oldS jnull path ++
      (rule4Seg (cbcF f) (cbcProtoF f) oldS jnull path ++
        rule5ProtoSeg oldS path)

end

/-- The engine entry point `collectBreakingChanges(oldSchema, newSchema,
path)`. -/
def collectBreakingChanges (oldS newS : JValue) (path : String) : List String :=
  cbcF (jsize oldS) oldS newS path

/-- The engine applied with `Object.prototype` as the new node, fuel
eliminated (wrapper of `cbcProtoF`, mirroring `collectBreakingChanges`). -/
def cbcProto (oldS : JValue) (path : String) : List String :=
  cbcProtoF (jsize oldS) oldS path

/-- The node's `type` value, if truthy, is a primitive — so the strict
comparison of rule 1 is value comparison rather than a spurious
reference comparison. -/
def typeCondB (fs : List (String × JValue)) : Bool :=
  match assocGet fs "type" with
  | some t => !(truthy t && !primV t)
  | none => true

/-- The node's `required` value, if an array, contains only primitives —
so `Array.prototype.includes` is value comparison rather than a spurious
reference comparison. -/
def reqCondB (fs : List (String × JValue)) : Bool :=
  match assocGet fs "required" with
  | some (jarr r) => r.all primV
  | _ => true

mutual

/-- The schema is *regular*: every object reachable by the engine's
recursion has pairwise-distinct keys (as `JSON.parse` output always
does), a primitive `type` value whenever that value is truthy, and only
primitive entries in its `required` array.  On such schemas the engine's
reference comparisons (`!==` on `type`, `includes` on `required`) behave
as value comparisons; outside this class they flag structurally equal
composites as changed. -/
def regular : JValue → Bool
  | jobj fs => nodupKeysB fs && typeCondB fs && reqCondB fs && regularO fs
  | _ => true

/-- All field values of the association list are regular. -/
def regularO : List (String × JValue) → Bool
  | [] => true
  | kv :: fs => regular kv.2 && regularO fs

end

mutual

/-- Erase the annotation keywords (`ANNOTATION_KEYS`) from every object
position that the engine's comparison actually reaches: the node itself,
the sub-schemas of its `properties` map, and the object values of
generic (rule 5) keywords.  Values compared by serialization — `type`,
`required`, `additionalProperties`, array values and primitive values —
are kept verbatim, since annotations inside them are *not* ignored by
the engine.  Two schemas "differ only by annotations visible to the
engine" exactly when their `stripAnn` images are equal. -/
def stripAnn : JValue → JValue
  | jobj fs => jobj (stripFields fs)
  | jnull => jnull
  | jbool b => jbool b
  | jnum n => jnum n
  | jstr s => jstr s
  | jarr xs => jarr xs

/-- Field-list part of `stripAnn`. -/
def stripFields : List (String × JValue) → List (String × JValue)
  | [] => []
  | kv :: fs =>
    if kv.1 ∈ ANNOTATION_KEYS then stripFields fs
    else if kv.1 = "properties" then (kv.1, stripPropsVal kv.2) :: stripFields fs
    else if specialKey kv.1 then kv :: stripFields fs
    else
      match kv.2 with
      | jobj _ => (kv.1, stripAnn kv.2) :: stripFields fs
      | _ => kv :: stripFields fs

/-- The `properties`-value part of `stripAnn`: each property sub-schema is
stripped (the engine recurses into every common property). -/
def stripPropsVal : JValue → JValue
  | jobj ps => jobj (stripPList ps)
  | v => v

/-- Property-map part of `stripAnn`. -/
def stripPList : List (String × JValue) → List (String × JValue)
  | [] => []
  | kv :: ps => (kv.1, stripAnn kv.2) :: stripPList ps

end

/-- The per-keyword value transformation performed by `stripFields` on a
kept (non-annotation) entry. -/
def stripVal (k : String) (v : JValue) : JValue :=
  if k = "properties" then stripPropsVal v
  else if specialKey k then v
  else
    match v with
    | jobj _ => stripAnn v
    | _ => v

/-- Remove every entry with the given key from an association list. -/
def eraseKeyAll : List (String × JValue) → String → List (String × JValue)
  | [], _ => []
  | kv :: fs, k => if kv.1 = k then eraseKeyAll fs k else kv :: eraseKeyAll fs k

/-- The node with its `additionalProperties` keyword removed (identity
on non-objects). -/
def dropAP : JValue → JValue
  | jobj fs => jobj (eraseKeyAll fs "additionalProperties")
  | v => v

end SchemaDiff

namespace SchemaDiff

open JValue

theorem jsize_pos (v : JValue) : 1 ≤ jsize v := by
  cases v <;> simp [jsize]

theorem jsizeO_mem {fs : List (String × JValue)} {kv : String × JValue}
    (h : kv ∈ fs) : jsize kv.2 ≤ jsizeO fs := by
  induction fs with
  | nil => cases h
  | cons hd tl ih =>
    rcases List.mem_cons.mp h with h1 | h2
    · subst h1; simp [jsizeO]
    · have := ih h2; simp [jsizeO]; omega

theorem assocGet_mem {fs : List (String × JValue)} {k : String} {v : JValue}
    (h : assocGet fs k = some v) : (k, v) ∈ fs := by
  induction fs with
  | nil => simp [assocGet] at h
  | cons hd tl ih =>
    by_cases e : hd.1 = k
    · simp only [assocGet, if_pos e] at h
      obtain rfl := Option.some.inj h
      exact List.mem_cons.mpr (Or.inl (by cases hd; simp_all))
    · simp only [assocGet, if_neg e] at h
      exact List.mem_cons_of_mem _ (ih h)

theorem jsize_mem_obj {fs : List (String × JValue)} {kv : String × JValue}
    (h : kv ∈ fs) : jsize kv.2 < jsize (jobj fs) := by
  have := jsizeO_mem h
  simp only [jsize]; omega

theorem jsize_getField {fs : List (String × JValue)} {k : String} {v : JValue}
    (h : assocGet fs k = some v) : jsize v < jsize (jobj fs) :=
  jsize_mem_obj (assocGet_mem h)

theorem jsize_propsOf {v : JValue} {kv : String × JValue}
    (h : kv ∈ propsOf v) : jsize kv.2 < jsize v := by
  unfold propsOf at h
  cases v <;> simp [getField] at h
  next fs =>
  cases hp : assocGet fs "properties" with
  | none => rw [hp] at h; cases h
  | some w =>
    rw [hp] at h
    cases w <;> simp at h
    next ps =>
    have h1 := jsizeO_mem h
    have h2 := jsize_getField hp
    simp only [jsize] at *
    omega

theorem listFlat_append (l₁ l₂ : List α) (f : α → List β) :
    listFlat (l₁ ++ l₂) f = listFlat l₁ f ++ listFlat l₂ f := by
  induction l₁ with
  | nil => rfl
  | cons x xs ih => simp [listFlat, ih]

theorem listFlat_congr {l : List α} {f g : α → List β}
    (h : ∀ x ∈ l, f x = g x) : listFlat l f = listFlat l g := by
  induction l with
  | nil => rfl
  | cons x xs ih =>
    simp only [listFlat]
    rw [h x (List.mem_cons_self x xs), ih (fun y hy => h y (List.mem_cons_of_mem x hy))]

theorem listFlat_eq_nil {l : List α} {f : α → List β}
    (h : ∀ x ∈ l, f x = []) : listFlat l f = [] := by
  induction l with
  | nil => rfl
  | cons x xs ih =>
    simp only [listFlat]
    rw [h x (List.mem_cons_self x xs), ih (fun y hy => h y (List.mem_cons_of_mem x hy))]
    rfl

theorem mem_listFlat {l : List α} {f : α → List β} {x : α} {b : β}
    (hx : x ∈ l) (hb : b ∈ f x) : b ∈ listFlat l f := by
  induction l with
  | nil => cases hx
  | cons y ys ih =>
    rcases List.mem_cons.mp hx with h1 | h2
    · subst h1; exact List.mem_append.mpr (Or.inl hb)
    · exact List.mem_append.mpr (Or.inr (ih h2))

theorem jsize_fieldsOf {v : JValue} {kv : String × JValue}
    (h : kv ∈ fieldsOf v) : jsize kv.2 < jsize v := by
  cases v <;> simp [fieldsOf] at h
  next fs => exact jsize_mem_obj h

theorem rule4Seg_congr {recur1 recur2 : JValue → JValue → String → List String}
    {rp1 rp2 : JValue → String → List String}
    {oldS newS : JValue} {p : String}
    (h : ∀ kv ∈ propsOf oldS, ∀ w cp, recur1 kv.2 w cp = recur2 kv.2 w cp)
    (hp : ∀ kv ∈ propsOf oldS, ∀ cp, rp1 kv.2 cp = rp2 kv.2 cp) :
    rule4Seg recur1 rp1 oldS newS p = rule4Seg recur2 rp2 oldS newS p := by
  unfold rule4Seg
  apply listFlat_congr
  intro kv hkv
  cases hg : assocGet (propsOf newS) kv.1 <;>
    simp [hg, h kv hkv, hp kv hkv]

theorem rule5Seg_congr {recur1 recur2 : JValue → JValue → String → List String}
    {oldS newS : JValue} {p : String}
    (h : ∀ kv ∈ fieldsOf oldS, ∀ w cp, recur1 kv.2 w cp = recur2 kv.2 w cp) :
    rule5Seg recur1 oldS newS p = rule5Seg recur2 oldS newS p := by
  unfold rule5Seg
  cases oldS with
  | jobj fs =>
    cases newS with
    | jobj gs =>
      apply listFlat_congr
      intro kv hkv
      obtain ⟨k, v2⟩ := kv
      have hkv2 : (k, v2) ∈ fieldsOf (jobj fs) := by simpa [fieldsOf] using hkv
      cases hsp : specialKey k
      · simp only [hsp, Bool.false_eq_true, if_false]
        by_cases han : k ∈ ANNOTATION_KEYS
        · simp [han]
        · simp only [han, if_false]
          cases hget : assocGet gs k with
          | none => simp [hget]
          | some w =>
            simp only [hget]
            cases v2 <;> cases w
            all_goals try rfl
            exact h _ hkv2 _ _
      · simp [hsp]
    | jnull => rfl
    | jbool b => rfl
    | jnum n => rfl
    | jstr s => rfl
    | jarr xs => rfl
  | jnull => rfl
  | jbool b => rfl
  | jnum n => rfl
  | jstr s => rfl
  | jarr xs => rfl

theorem rule1Seg_congr_old {o1 o2 n : JValue} {p : String}
    (e1 : getField o1 "type" = getField o2 "type")
    (e2 : truthy o1 = truthy o2) :
    rule1Seg o1 n p = rule1Seg o2 n p := by
  unfold rule1Seg
  rw [e1, e2]

theorem rule1Seg_newType_none {o n : JValue} {p : String}
    (h : getField n "type" = none) : rule1Seg o n p = [] := by
  unfold rule1Seg
  rw [h]
  cases hx : getField o "type" <;> rfl

theorem rule2Seg_congr_old {o1 o2 n : JValue} {p : String}
    (e : getField o1 "additionalProperties" = getField o2 "additionalProperties") :
    rule2Seg o1 n p = rule2Seg o2 n p := by
  unfold rule2Seg
  rw [e]

theorem rule3Seg_congr_old {o1 o2 n : JValue} {p : String}
    (e : reqListOf o1 = reqListOf o2) :
    rule3Seg o1 n p = rule3Seg o2 n p := by
  unfold rule3Seg
  rw [e]

theorem rule4Seg_congr_old {recur : JValue → JValue → String → List String}
    {rp : JValue → String → List String}
    {o1 o2 n : JValue} {p : String} (e : propsOf o1 = propsOf o2) :
    rule4Seg recur rp o1 n p = rule4Seg recur rp o2 n p := by
  unfold rule4Seg
  rw [e]

theorem rule5Seg_mid_special (recur : JValue → JValue → String → List String)
    (tA tB : List (String × JValue)) (k : String) (w : JValue)
    (newS : JValue) (p : String) (hk : specialKey k = true) :
    rule5Seg recur (jobj (tA ++ (k, w) :: tB)) newS p =
      rule5Seg recur (jobj (tA ++ tB)) newS p := by
  unfold rule5Seg
  cases newS with
  | jobj gs =>
    dsimp only
    rw [listFlat_append, listFlat_append]
    simp [listFlat, hk]
  | jnull => rfl
  | jbool b => rfl
  | jnum n => rfl
  | jstr s => rfl
  | jarr xs => rfl

theorem cbc_fuel_eq_pair : ∀ f g : Nat,
    (∀ oldS newS p, jsize oldS ≤ f → jsize oldS ≤ g →
      cbcF f oldS newS p = cbcF g oldS newS p) ∧
    (∀ oldS p, jsize oldS ≤ f → jsize oldS ≤ g →
      cbcProtoF f oldS p = cbcProtoF g oldS p) := by
  intro f
  induction f with
  | zero =>
    intro g
    constructor
    · intro oldS newS p hf hg
      exact absurd hf (by have := jsize_pos oldS; omega)
    · intro oldS p hf hg
      exact absurd hf (by have := jsize_pos oldS; omega)
  | succ f ih =>
    intro g
    constructor
    · intro oldS newS p hf hg
      obtain ⟨g', rfl⟩ : ∃ g', g = g' + 1 :=
        ⟨g - 1, by have := jsize_pos oldS; omega⟩
      simp only [cbcF]
      congr 1
      congr 1
      congr 1
      congr 1
      · apply rule4Seg_congr
        · intro kv hkv w cp
          have hs : jsize kv.2 < jsize oldS := jsize_propsOf hkv
          exact (ih g').1 kv.2 w cp (by omega) (by omega)
        · intro kv hkv cp
          have hs : jsize kv.2 < jsize oldS := jsize_propsOf hkv
          exact (ih g').2 kv.2 cp (by omega) (by omega)
      · apply rule5Seg_congr
        intro kv hkv w cp
        have hs : jsize kv.2 < jsize oldS := jsize_fieldsOf hkv
        exact (ih g').1 kv.2 w cp (by omega) (by omega)
    · intro oldS p hf hg
      obtain ⟨g', rfl⟩ : ∃ g', g = g' + 1 :=
        ⟨g - 1, by have := jsize_pos oldS; omega⟩
      simp only [cbcProtoF]
      congr 1
      congr 1
      apply rule4Seg_congr
      · intro kv hkv w cp
        have hs : jsize kv.2 < jsize oldS := jsize_propsOf hkv
        exact (ih g').1 kv.2 w cp (by omega) (by omega)
      · intro kv hkv cp
        have hs : jsize kv.2 < jsize oldS := jsize_propsOf hkv
        exact (ih g').2 kv.2 cp (by omega) (by omega)

theorem cbcF_fuel_eq : ∀ f g oldS newS p, jsize oldS ≤ f → jsize oldS ≤ g →
    cbcF f oldS newS p = cbcF g oldS newS p :=
  fun f g oldS newS p hf hg => (cbc_fuel_eq_pair f g).1 oldS newS p hf hg

theorem cbcProtoF_fuel_eq : ∀ f g oldS p, jsize oldS ≤ f → jsize oldS ≤ g →
    cbcProtoF f oldS p = cbcProtoF g oldS p :=
  fun f g oldS p hf hg => (cbc_fuel_eq_pair f g).2 oldS p hf hg

theorem jsStrictEq_refl {t : JValue} (h : primV t = true) : jsStrictEq t t = true := by
  cases t <;> simp_all [primV, jsStrictEq]

theorem jsIncludes_self {l : List JValue} {x : JValue}
    (hx : x ∈ l) (hp : primV x = true) : jsIncludes l x = true := by
  simp only [jsIncludes, List.any_eq_true]
  exact ⟨x, hx, jsStrictEq_refl hp⟩

theorem hasKeyB_of_mem {fs : List (String × JValue)} {kv : String × JValue}
    (h : kv ∈ fs) : hasKeyB fs kv.1 = true := by
  induction fs with
  | nil => cases h
  | cons hd tl ih =>
    rcases List.mem_cons.mp h with h1 | h2
    · subst h1; simp [hasKeyB]
    · by_cases e : hd.1 = kv.1 <;> simp_all [hasKeyB, e]

theorem assocGet_of_mem_nodup {fs : List (String × JValue)} {kv : String × JValue}
    (hnd : nodupKeysB fs = true) (h : kv ∈ fs) : assocGet fs kv.1 = some kv.2 := by
  induction fs with
  | nil => cases h
  | cons hd tl ih =>
    simp only [nodupKeysB, Bool.and_eq_true, Bool.not_eq_true'] at hnd
    rcases List.mem_cons.mp h with h1 | h2
    · subst h1; simp [assocGet]
    · have hne : hd.1 ≠ kv.1 := by
        intro e
        rw [e] at hnd
        rw [hasKeyB_of_mem h2] at hnd
        exact absurd hnd.1 (by simp)
      simp [assocGet, hne, ih hnd.2 h2]

theorem reg_parts {fs : List (String × JValue)} (h : regular (jobj fs) = true) :
    nodupKeysB fs = true ∧ typeCondB fs = true ∧ reqCondB fs = true ∧
      regularO fs = true := by
  simp only [regular, Bool.and_eq_true] at h
  exact ⟨h.1.1.1, h.1.1.2, h.1.2, h.2⟩

theorem regularO_mem {fs : List (String × JValue)} {kv : String × JValue}
    (h : regularO fs = true) (hm : kv ∈ fs) : regular kv.2 = true := by
  induction fs with
  | nil => cases hm
  | cons hd tl ih =>
    simp only [regularO, Bool.and_eq_true] at h
    rcases List.mem_cons.mp hm with h1 | h2
    · subst h1; exact h.1
    · exact ih h.2 h2

theorem regular_field {fs : List (String × JValue)} {k : String} {v : JValue}
    (h : regular (jobj fs) = true) (hg : assocGet fs k = some v) :
    regular v = true :=
  regularO_mem (reg_parts h).2.2.2 (assocGet_mem hg)

theorem getField_obj (fs : List (String × JValue)) (k : String) :
    getField (jobj fs) k = assocGet fs k := rfl

theorem propsOf_obj (fs : List (String × JValue)) :
    propsOf (jobj fs) =
      (match assocGet fs "properties" with
        | some (jobj ps) => ps
        | _ => []) := rfl

theorem reqListOf_obj (fs : List (String × JValue)) :
    reqListOf (jobj fs) =
      (match assocGet fs "required" with
        | some (jarr r) => r
        | _ => []) := rfl

theorem regular_propsOf {v : JValue} (h : regular v = true) :
    regular (jobj (propsOf v)) = true := by
  have hbase : regular (jobj ([] : List (String × JValue))) = true := by decide
  cases v with
  | jobj fs =>
    rw [propsOf_obj]
    cases hp : assocGet fs "properties" with
    | none => exact hbase
    | some w =>
      cases w with
      | jobj ps => exact regular_field h hp
      | jnull => exact hbase
      | jbool b => exact hbase
      | jnum n => exact hbase
      | jstr s => exact hbase
      | jarr xs => exact hbase
  | jnull => exact hbase
  | jbool b => exact hbase
  | jnum n => exact hbase
  | jstr s => exact hbase
  | jarr xs => exact hbase

theorem reqList_prim {v : JValue} {x : JValue}
    (h : regular v = true) (hx : x ∈ reqListOf v) : primV x = true := by
  cases v <;> simp [reqListOf, getField] at hx
  next fs =>
  cases hr : assocGet fs "required" with
  | none => rw [hr] at hx; cases hx
  | some w =>
    rw [hr] at hx
    cases w <;> simp at hx
    next r =>
    have hc := (reg_parts h).2.2.1
    unfold reqCondB at hc
    rw [hr] at hc
    exact List.all_eq_true.mp hc x hx

theorem cbcF_self : ∀ f v p, jsize v ≤ f → regular v = true → cbcF f v v p = [] := by
  intro f
  induction f with
  | zero =>
    intro v p hf _
    exact absurd hf (by have := jsize_pos v; omega)
  | succ f ih =>
    intro v p hf hreg
    simp only [cbcF]
    refine List.append_eq_nil.mpr ⟨?_, List.append_eq_nil.mpr ⟨?_,
      List.append_eq_nil.mpr ⟨?_, List.append_eq_nil.mpr ⟨?_, ?_⟩⟩⟩⟩
    · unfold rule1Seg
      cases v with
      | jobj fs =>
        cases ht : assocGet fs "type" with
        | none => simp [getField, ht]
        | some t =>
          simp only [getField, ht]
          cases htr : truthy t
          · simp [htr]
          · have hc := (reg_parts hreg).2.1
            unfold typeCondB at hc
            rw [ht] at hc
            simp only [htr, Bool.true_and, Bool.not_eq_true'] at hc
            have hp : primV t = true := by
              cases hpv : primV t
              · rw [hpv] at hc; simp at hc
              · rfl
            simp [htr, truthy, jsStrictEq_refl hp]
      | jnull => rfl
      | jbool b => rfl
      | jnum n => rfl
      | jstr s => rfl
      | jarr xs => rfl
    · unfold rule2Seg
      simp
    · unfold rule3Seg
      apply listFlat_eq_nil
      intro x hx
      simp [jsIncludes_self hx (reqList_prim hreg hx)]
    · unfold rule4Seg
      apply listFlat_eq_nil
      intro kv hkv
      obtain ⟨k, v2⟩ := kv
      have hnd : nodupKeysB (propsOf v) = true := (reg_parts (regular_propsOf hreg)).1
      have hget : assocGet (propsOf v) k = some v2 := assocGet_of_mem_nodup hnd hkv
      simp only [hget]
      have hs : jsize v2 < jsize v := jsize_propsOf hkv
      have hr2 : regular v2 = true :=
        regularO_mem (reg_parts (regular_propsOf hreg)).2.2.2 hkv
      exact ih v2 _ (by omega) hr2
    · unfold rule5Seg
      cases v with
      | jobj fs =>
        apply listFlat_eq_nil
        intro kv hkv
        obtain ⟨k, v2⟩ := kv
        cases hsp : specialKey k
        · simp only [hsp, Bool.false_eq_true, if_false]
          by_cases han : k ∈ ANNOTATION_KEYS
          · simp [han]
          · simp only [han, if_false]
            have hget : assocGet fs k = some v2 :=
              assocGet_of_mem_nodup (reg_parts hreg).1 hkv
            simp only [hget]
            have hs : jsize v2 < jsize (jobj fs) := jsize_mem_obj hkv
            have hr2 : regular v2 = true :=
              regularO_mem (reg_parts hreg).2.2.2 hkv
            cases v2 <;> simp
            exact ih _ _ (by omega) hr2
        · simp [hsp]
      | jnull => rfl
      | jbool b => rfl
      | jnum n => rfl
      | jstr s => rfl
      | jarr xs => rfl

end SchemaDiff

namespace SchemaDiff

open JValue

theorem jsizeO_append (xs ys : List (String × JValue)) :
    jsizeO (xs ++ ys) = jsizeO xs + jsizeO ys := by
  induction xs with
  | nil => simp [jsizeO]
  | cons hd tl ih => simp [jsizeO, ih]; omega

theorem assocGet_skip_mid (xs ys : List (String × JValue)) (k : String)
    (w : JValue) (c : String) (h : k ≠ c) :
    assocGet (xs ++ (k, w) :: ys) c = assocGet (xs ++ ys) c := by
  induction xs with
  | nil => simp [assocGet, h]
  | cons hd tl ih =>
    by_cases e : hd.1 = c <;> simp [assocGet, e, ih]

theorem assocGet_append_hit {xs ys : List (String × JValue)} {k : String}
    {v : JValue} (h : assocGet xs k = none) :
    assocGet (xs ++ (k, v) :: ys) k = some v := by
  induction xs with
  | nil => simp [assocGet]
  | cons hd tl ih =>
    by_cases e : hd.1 = k
    · simp [assocGet, e] at h
    · simp only [assocGet, if_neg e] at h
      simp [assocGet, e, ih h]

theorem truthy_of_getField {v : JValue} {k : String} {w : JValue}
    (h : getField v k = some w) : truthy v = true := by
  cases v <;> simp_all [getField, truthy]

/-- C1 (amended).  Idempotence holds on regular schemas: for every
schema node `A` whose compared objects have distinct keys, whose truthy
`type` values are primitive, and whose `required` arrays contain only
primitives, `compare(A, A, p)` is empty for every path `p`.  (On
non-regular schemas idempotence fails, see the counterexample: the
engine's `!==`/`includes` checks compare composite values from the two
parsed trees by reference.) -/
theorem c1_compare_self_regular_empty (A : JValue) (p : String)
    (h : regular A = true) : collectBreakingChanges A A p = [] :=
  cbcF_self (jsize A) A p (le_refl _) h

/-- C1 witness: a concrete regular schema compared with itself gives no
finding. -/
theorem c1_witness :
    regular (jobj [("type", jstr "object"),
      ("properties", jobj [("a", jobj [("type", jstr "string")])]),
      ("required", jarr [jstr "a"])]) = true ∧
    collectBreakingChanges
      (jobj [("type", jstr "object"),
        ("properties", jobj [("a", jobj [("type", jstr "string")])]),
        ("required", jarr [jstr "a"])])
      (jobj [("type", jstr "object"),
        ("properties", jobj [("a", jobj [("type", jstr "string")])]),
        ("required", jarr [jstr "a"])]) "" = [] :=
  ⟨by decide, c1_compare_self_regular_empty _ "" (by decide)⟩

/-- C1 counterexample: the claim "compare(A, A, p) is always empty, for
any schema A" fails at A = `{"type":["string"]}`.  The two sides are
separate `JSON.parse` results, so rule 1's `!==` compares the two
structurally equal arrays by reference and reports a (vacuous) type
change. -/
theorem c1_counterexample :
    collectBreakingChanges (jobj [("type", jarr [jstr "string"])])
        (jobj [("type", jarr [jstr "string"])]) "" =
      ["<root>: type changed from \"string\" to \"string\""] ∧
    collectBreakingChanges (jobj [("type", jarr [jstr "string"])])
        (jobj [("type", jarr [jstr "string"])]) "" ≠ [] :=
  ⟨by decide, by decide⟩

/-- C5 (amended).  If both nodes define a *truthy* `type` value and the
strict comparison of the two values fails, the engine emits the
`type changed` finding at the current path; in particular old
`{"type":"string"}` versus new `{"type":"number"}` yields exactly that
one finding.  (A falsy `type` value — `""`, `0`, `false`, `null` —
disables rule 1 even though the keyword is defined, see the
counterexample.) -/
theorem c5_type_changed (oldS newS : JValue) (p : String) (t1 t2 : JValue)
    (h1 : getField oldS "type" = some t1) (h2 : getField newS "type" = some t2)
    (h3 : truthy t1 = true) (h4 : truthy t2 = true)
    (h5 : jsStrictEq t1 t2 = false) :
    typeChangedMsg (hereStr p) t1 t2 ∈ collectBreakingChanges oldS newS p ∧
    collectBreakingChanges (jobj [("type", jstr "string")])
        (jobj [("type", jstr "number")]) "" =
      ["<root>: type changed from \"string\" to \"number\""] := by
  constructor
  · obtain ⟨f, hf⟩ : ∃ f, jsize oldS = f + 1 :=
      ⟨jsize oldS - 1, by have := jsize_pos oldS; omega⟩
    simp only [collectBreakingChanges]
    rw [hf]
    simp only [cbcF, rule1Seg, h1, h2, truthy_of_getField h1,
      truthy_of_getField h2, h3, h4, h5]
    simp
  · decide

/-- C5 witness: the general statement applied at the schemas of example
scenario 2. -/
theorem c5_witness :
    typeChangedMsg (hereStr "") (jstr "string") (jstr "number") ∈
      collectBreakingChanges (jobj [("type", jstr "string")])
        (jobj [("type", jstr "number")]) "" :=
  (c5_type_changed (jobj [("type", jstr "string")])
    (jobj [("type", jstr "number")]) "" (jstr "string") (jstr "number")
    rfl rfl (by decide) (by decide) (by decide)).1

/-- C5 counterexample: the claim "if both nodes define a `type` keyword
and the two values differ, compare emits the finding" fails at old
`{"type":""}` versus new `{"type":"number"}`: both define `type` and
the values differ, yet the output is empty, because `""` is falsy and
rule 1 requires both `type` values to be truthy (and rule 5 skips the
`type` keyword entirely). -/
theorem c5_counterexample :
    collectBreakingChanges (jobj [("type", jstr "")])
      (jobj [("type", jstr "number")]) "" = [] := by decide

end SchemaDiff

namespace SchemaDiff

open JValue

/-- C6 (amended).  When only the old node defines `type`, no rule emits
anything for it: rule 1 requires both sides to define a truthy `type`,
and rule 5 — contrary to the claim — explicitly skips the `type`
keyword, so the old node's `type` entry is completely inert and a
removed `type` produces no finding at all.  Stated as: deleting the
`type` entry from the old node does not change the output when the new
node has no `type`, and concretely `{"type":"string"}` versus `{}`
yields no finding. -/
theorem c6_removed_type_silent (tA tB : List (String × JValue)) (t : JValue)
    (newS : JValue) (p : String) (h : getField newS "type" = none) :
    collectBreakingChanges (jobj (tA ++ ("type", t) :: tB)) newS p =
      collectBreakingChanges (jobj (tA ++ tB)) newS p ∧
    collectBreakingChanges (jobj [("type", jstr "string")]) (jobj []) "" = [] := by
  refine ⟨?_, by decide⟩
  have hsz : jsize (jobj (tA ++ tB)) ≤ jsize (jobj (tA ++ ("type", t) :: tB)) := by
    simp only [jsize, jsizeO_append, jsizeO]
    have := jsize_pos t
    omega
  simp only [collectBreakingChanges]
  rw [cbcF_fuel_eq (jsize (jobj (tA ++ tB)))
    (jsize (jobj (tA ++ ("type", t) :: tB))) (jobj (tA ++ tB)) newS p
    (le_refl _) hsz]
  obtain ⟨f, hf⟩ : ∃ f, jsize (jobj (tA ++ ("type", t) :: tB)) = f + 1 :=
    ⟨jsize (jobj (tA ++ ("type", t) :: tB)) - 1,
      by have := jsize_pos (jobj (tA ++ ("type", t) :: tB)); omega⟩
  rw [hf]
  simp only [cbcF]
  have hAP : getField (jobj (tA ++ ("type", t) :: tB)) "additionalProperties" =
      getField (jobj (tA ++ tB)) "additionalProperties" := by
    simp only [getField_obj]
    exact assocGet_skip_mid tA tB "type" t "additionalProperties" (by decide)
  have hR : reqListOf (jobj (tA ++ ("type", t) :: tB)) =
      reqListOf (jobj (tA ++ tB)) := by
    rw [reqListOf_obj, reqListOf_obj,
      assocGet_skip_mid tA tB "type" t "required" (by decide)]
  have hP : propsOf (jobj (tA ++ ("type", t) :: tB)) =
      propsOf (jobj (tA ++ tB)) := by
    rw [propsOf_obj, propsOf_obj,
      assocGet_skip_mid tA tB "type" t "properties" (by decide)]
  rw [rule1Seg_newType_none h, rule1Seg_newType_none h,
    rule2Seg_congr_old hAP, rule3Seg_congr_old hR, rule4Seg_congr_old hP,
    rule5Seg_mid_special (cbcF f) tA tB "type" t newS p (by decide)]

/-- C6 witness: deleting `"type"` from old `{"type":"string","minimum":3}`
against new `{"minimum":3}` changes nothing (and the output is in fact
empty), and `{"type":"string"}` versus `{}` yields no finding at all —
in particular no `keyword "type" was removed` finding. -/
theorem c6_witness :
    collectBreakingChanges (jobj [("type", jstr "string"), ("minimum", jnum 3)])
        (jobj [("minimum", jnum 3)]) "" =
      collectBreakingChanges (jobj [("minimum", jnum 3)])
        (jobj [("minimum", jnum 3)]) "" ∧
    collectBreakingChanges (jobj [("type", jstr "string")]) (jobj []) "" = [] :=
  c6_removed_type_silent [] [("minimum", jnum 3)] (jstr "string")
    (jobj [("minimum", jnum 3)]) "" rfl

/-- C6 counterexample: the claim says that for old `{"type":"string"}`
and new `{}` rule 5 emits a `keyword "type" was removed` finding; the
engine's output is empty instead (rule 5's skip list contains `type`). -/
theorem c6_counterexample :
    collectBreakingChanges (jobj [("type", jstr "string")]) (jobj []) "" = [] ∧
    ("<root>: keyword \"type\" was removed" ∉
      collectBreakingChanges (jobj [("type", jstr "string")]) (jobj []) "") :=
  ⟨by decide, by decide⟩

/-- C9 (amended).  The engine is a total function (the Lean model is a
terminating function on all well-formed JSON values, so the JS source
never throws: every property access is guarded), and a missing or
non-object node *on the old side* yields the same findings as an empty
object in its place.  The same is not true of the new side: a non-object
new node disables rule 5 entirely, whereas an empty object would flag
every remaining old keyword as removed (see the counterexample). -/
theorem c9_nonobject_old_like_empty (v X : JValue) (p : String)
    (h : isObject v = false) :
    collectBreakingChanges v X p = collectBreakingChanges (jobj []) X p := by
  have hge : jsize (jobj ([] : List (String × JValue))) ≤ jsize v := by
    have := jsize_pos v
    simp only [jsize, jsizeO]
    omega
  simp only [collectBreakingChanges]
  rw [cbcF_fuel_eq (jsize (jobj ([] : List (String × JValue)))) (jsize v)
    (jobj []) X p (le_refl _) hge]
  obtain ⟨f, hf⟩ : ∃ f, jsize v = f + 1 :=
    ⟨jsize v - 1, by have := jsize_pos v; omega⟩
  rw [hf]
  cases v with
  | jobj fs => simp [isObject] at h
  | jnull => cases X <;> rfl
  | jbool b => cases X <;> rfl
  | jnum n => cases X <;> rfl
  | jstr s => cases X <;> rfl
  | jarr xs => cases X <;> rfl

/-- C9 witness: a string old node behaves exactly like `{}` against a
concrete new object. -/
theorem c9_witness :
    collectBreakingChanges (jstr "hello") (jobj [("type", jstr "number")]) "" =
      collectBreakingChanges (jobj []) (jobj [("type", jstr "number")]) "" :=
  c9_nonobject_old_like_empty (jstr "hello") (jobj [("type", jstr "number")])
    "" rfl

/-- C9 counterexample: the claim "a missing or non-object node yields
the same findings as an empty object in its place" fails on the new
side: old `{"minimum":1}` against `null` yields no finding (rule 5 is
skipped because the new node is not an object), while the same old node
against `{}` flags `keyword "minimum" was removed`. -/
theorem c9_counterexample :
    collectBreakingChanges (jobj [("minimum", jnum 1)]) jnull "" = [] ∧
    collectBreakingChanges (jobj [("minimum", jnum 1)]) (jobj []) "" =
      ["<root>: keyword \"minimum\" was removed"] :=
  ⟨by decide, by decide⟩

end SchemaDiff

namespace SchemaDiff

open JValue

theorem assocGet_eraseKeyAll_ne (fs : List (String × JValue)) (k c : String)
    (h : c ≠ k) : assocGet (eraseKeyAll fs k) c = assocGet fs c := by
  induction fs with
  | nil => rfl
  | cons hd tl ih =>
    have h2 : k ≠ c := fun hh => h hh.symm
    by_cases e : hd.1 = k
    · have hne : hd.1 ≠ c := by rw [e]; exact h2
      simp [eraseKeyAll, e, assocGet, hne, ih, h2]
    · by_cases e2 : hd.1 = c <;> simp [eraseKeyAll, e, assocGet, e2, ih, h, h2]

theorem assocGet_eraseKeyAll_self (fs : List (String × JValue)) (k : String) :
    assocGet (eraseKeyAll fs k) k = none := by
  induction fs with
  | nil => rfl
  | cons hd tl ih => by_cases e : hd.1 = k <;> simp [eraseKeyAll, e, assocGet, ih]

theorem mem_eraseKeyAll {fs : List (String × JValue)} {k : String}
    {kv : String × JValue} (h : kv ∈ eraseKeyAll fs k) : kv ∈ fs ∧ kv.1 ≠ k := by
  induction fs with
  | nil => cases h
  | cons hd tl ih =>
    by_cases e : hd.1 = k
    · simp only [eraseKeyAll, if_pos e] at h
      obtain ⟨m, ne⟩ := ih h
      exact ⟨List.mem_cons_of_mem _ m, ne⟩
    · simp only [eraseKeyAll, if_neg e] at h
      rcases List.mem_cons.mp h with h1 | h2
      · subst h1; exact ⟨List.mem_cons_self _ _, e⟩
      · obtain ⟨m, ne⟩ := ih h2
        exact ⟨List.mem_cons_of_mem _ m, ne⟩

theorem listFlat_eraseKeyAll {fs : List (String × JValue)} {k : String}
    {f : String × JValue → List String}
    (h : ∀ kv ∈ fs, kv.1 = k → f kv = []) :
    listFlat fs f = listFlat (eraseKeyAll fs k) f := by
  induction fs with
  | nil => rfl
  | cons hd tl ih =>
    by_cases e : hd.1 = k
    · simp only [eraseKeyAll, if_pos e, listFlat]
      rw [h hd (List.mem_cons_self _ _) e,
        ih (fun kv hm he => h kv (List.mem_cons_of_mem _ hm) he)]
      rfl
    · simp only [eraseKeyAll, if_neg e, listFlat]
      rw [ih (fun kv hm he => h kv (List.mem_cons_of_mem _ hm) he)]

theorem jsizeO_eraseKeyAll_le (fs : List (String × JValue)) (k : String) :
    jsizeO (eraseKeyAll fs k) ≤ jsizeO fs := by
  induction fs with
  | nil => simp [eraseKeyAll]
  | cons hd tl ih =>
    by_cases e : hd.1 = k <;> simp [eraseKeyAll, e, jsizeO] <;> omega

theorem jsize_dropAP_le (v : JValue) : jsize (dropAP v) ≤ jsize v := by
  cases v with
  | jobj fs =>
    have := jsizeO_eraseKeyAll_le fs "additionalProperties"
    simp only [dropAP, jsize]
    omega
  | jnull => exact le_refl _
  | jbool b => exact le_refl _
  | jnum n => exact le_refl _
  | jstr s => exact le_refl _
  | jarr xs => exact le_refl _

theorem getField_dropAP_ne (v : JValue) (c : String)
    (h : c ≠ "additionalProperties") : getField (dropAP v) c = getField v c := by
  cases v <;> simp [dropAP, getField, assocGet_eraseKeyAll_ne _ _ _ h]

theorem getField_dropAP_self (v : JValue) :
    getField (dropAP v) "additionalProperties" = none := by
  cases v <;> simp [dropAP, getField, assocGet_eraseKeyAll_self]

theorem truthy_dropAP (v : JValue) : truthy (dropAP v) = truthy v := by
  cases v <;> rfl

theorem reqListOf_dropAP (v : JValue) : reqListOf (dropAP v) = reqListOf v := by
  unfold reqListOf
  rw [getField_dropAP_ne _ _ (by decide)]

theorem propsOf_dropAP (v : JValue) : propsOf (dropAP v) = propsOf v := by
  unfold propsOf
  rw [getField_dropAP_ne _ _ (by decide)]

theorem rule1Seg_congr2 {o1 o2 n1 n2 : JValue} {p : String}
    (e1 : getField o1 "type" = getField o2 "type")
    (e2 : truthy o1 = truthy o2)
    (e3 : getField n1 "type" = getField n2 "type")
    (e4 : truthy n1 = truthy n2) :
    rule1Seg o1 n1 p = rule1Seg o2 n2 p := by
  unfold rule1Seg
  rw [e1, e2, e3, e4]

theorem rule2Seg_none_none {o n : JValue} {p : String}
    (h1 : getField o "additionalProperties" = none)
    (h2 : getField n "additionalProperties" = none) :
    rule2Seg o n p = [] := by
  unfold rule2Seg
  rw [h1, h2]
  simp

theorem rule3Seg_congr2 {o1 o2 n1 n2 : JValue} {p : String}
    (e1 : reqListOf o1 = reqListOf o2) (e2 : reqListOf n1 = reqListOf n2) :
    rule3Seg o1 n1 p = rule3Seg o2 n2 p := by
  unfold rule3Seg
  rw [e1, e2]

theorem rule4Seg_congr2 {recur : JValue → JValue → String → List String}
    {rp : JValue → String → List String}
    {o1 o2 n1 n2 : JValue} {p : String}
    (e1 : propsOf o1 = propsOf o2) (e2 : propsOf n1 = propsOf n2) :
    rule4Seg recur rp o1 n1 p = rule4Seg recur rp o2 n2 p := by
  unfold rule4Seg
  rw [e1, e2]

theorem rule5Seg_dropAP (recur : JValue → JValue → String → List String)
    (o n : JValue) (p : String) :
    rule5Seg recur (dropAP o) (dropAP n) p = rule5Seg recur o n p := by
  cases o with
  | jobj fs =>
    cases n with
    | jobj gs =>
      unfold rule5Seg dropAP
      dsimp only
      have step1 :
          listFlat (eraseKeyAll fs "additionalProperties") (fun kv =>
            if specialKey kv.1 then []
            else if kv.1 ∈ ANNOTATION_KEYS then []
            else
              match assocGet (eraseKeyAll gs "additionalProperties") kv.1 with
              | none => [removedKwMsg (hereStr p) kv.1]
              | some w =>
                match kv.2, w with
                | jobj _, jobj _ => recur kv.2 w (kwPath p kv.1)
                | jarr _, jarr _ =>
                  if jstringify kv.2 = jstringify w then []
                  else [arrChangedMsg (kwPath p kv.1) kv.2 w]
                | _, _ =>
                  if jstringify kv.2 = jstringify w then []
                  else [valChangedMsg (kwPath p kv.1) kv.2 w]) =
          listFlat (eraseKeyAll fs "additionalProperties") (fun kv =>
            if specialKey kv.1 then []
            else if kv.1 ∈ ANNOTATION_KEYS then []
            else
              match assocGet gs kv.1 with
              | none => [removedKwMsg (hereStr p) kv.1]
              | some w =>
                match kv.2, w with
                | jobj _, jobj _ => recur kv.2 w (kwPath p kv.1)
                | jarr _, jarr _ =>
                  if jstringify kv.2 = jstringify w then []
                  else [arrChangedMsg (kwPath p kv.1) kv.2 w]
                | _, _ =>
                  if jstringify kv.2 = jstringify w then []
                  else [valChangedMsg (kwPath p kv.1) kv.2 w]) := by
        apply listFlat_congr
        intro kv hm
        obtain ⟨_, hne⟩ := mem_eraseKeyAll hm
        rw [assocGet_eraseKeyAll_ne gs "additionalProperties" kv.1 hne]
      rw [step1]
      exact (listFlat_eraseKeyAll (fun kv hm he => by
        simp [he, specialKey])).symm
    | jnull => rfl
    | jbool b => rfl
    | jnum n => rfl
    | jstr s => rfl
    | jarr xs => rfl
  | jnull => rfl
  | jbool b => rfl
  | jnum n => rfl
  | jstr s => rfl
  | jarr xs => rfl

/-- C4.  Whenever either node defines `additionalProperties` and the
serialized values differ (absence being `undefined`, distinct from
`false`), the engine emits exactly one finding for it, at the current
path, quoting both serialized values: the output is the output of the
same comparison with the keyword removed from both sides, with the
single `additionalProperties changed` finding inserted.  In particular
`{"additionalProperties":false}` versus `{"additionalProperties":true}`
yields exactly one finding, in either direction. -/
theorem c4_additionalProperties_change (oldS newS : JValue) (p : String)
    (h : (getField oldS "additionalProperties").map jstringify ≠
        (getField newS "additionalProperties").map jstringify) :
    (∃ A B, collectBreakingChanges oldS newS p =
        A ++ apChangedMsg (hereStr p) (getField oldS "additionalProperties")
          (getField newS "additionalProperties") :: B ∧
        A ++ B = collectBreakingChanges (dropAP oldS) (dropAP newS) p) ∧
    collectBreakingChanges (jobj [("additionalProperties", jbool false)])
        (jobj [("additionalProperties", jbool true)]) "" =
      ["<root>: additionalProperties changed from false to true"] ∧
    collectBreakingChanges (jobj [("additionalProperties", jbool true)])
        (jobj [("additionalProperties", jbool false)]) "" =
      ["<root>: additionalProperties changed from true to false"] := by
  refine ⟨?_, by decide, by decide⟩
  obtain ⟨f, hf⟩ : ∃ f, jsize oldS = f + 1 :=
    ⟨jsize oldS - 1, by have := jsize_pos oldS; omega⟩
  have hr2 : rule2Seg oldS newS p =
      [apChangedMsg (hereStr p) (getField oldS "additionalProperties")
        (getField newS "additionalProperties")] := by
    unfold rule2Seg
    have hsome : ((getField oldS "additionalProperties").isSome ||
        (getField newS "additionalProperties").isSome) = true := by
      cases ho : getField oldS "additionalProperties" <;>
        cases hn : getField newS "additionalProperties" <;> simp_all
    simp [hsome, h]
  refine ⟨rule1Seg oldS newS p,
    rule3Seg oldS newS p ++
      (rule4Seg (cbcF f) (cbcProtoF f) oldS newS p ++
        rule5Seg (cbcF f) oldS newS p),
    ?_, ?_⟩
  · simp only [collectBreakingChanges]
    rw [hf]
    simp only [cbcF, hr2]
    rfl
  · simp only [collectBreakingChanges]
    rw [cbcF_fuel_eq (jsize (dropAP oldS)) (jsize oldS) (dropAP oldS)
      (dropAP newS) p (le_refl _) (jsize_dropAP_le oldS), hf]
    simp only [cbcF]
    rw [rule1Seg_congr2 (getField_dropAP_ne oldS "type" (by decide))
        (truthy_dropAP oldS) (getField_dropAP_ne newS "type" (by decide))
        (truthy_dropAP newS),
      rule2Seg_none_none (getField_dropAP_self oldS) (getField_dropAP_self newS),
      rule3Seg_congr2 (reqListOf_dropAP oldS) (reqListOf_dropAP newS),
      rule4Seg_congr2 (propsOf_dropAP oldS) (propsOf_dropAP newS),
      rule5Seg_dropAP (cbcF f) oldS newS p]
    rfl

/-- C4 witness: the delta decomposition applied to the scenario-4
schemas (the hypothesis is discharged concretely: `false` and `true`
serialize differently). -/
theorem c4_witness :
    ∃ A B, collectBreakingChanges (jobj [("additionalProperties", jbool false)])
        (jobj [("additionalProperties", jbool true)]) "" =
      A ++ apChangedMsg (hereStr "")
        (getField (jobj [("additionalProperties", jbool false)])
          "additionalProperties")
        (getField (jobj [("additionalProperties", jbool true)])
          "additionalProperties") :: B ∧
      A ++ B = collectBreakingChanges
        (dropAP (jobj [("additionalProperties", jbool false)]))
        (dropAP (jobj [("additionalProperties", jbool true)])) "" :=
  (c4_additionalProperties_change (jobj [("additionalProperties", jbool false)])
    (jobj [("additionalProperties", jbool true)]) "" (by decide)).1

end SchemaDiff

namespace SchemaDiff

open JValue

theorem rule4Seg_canon {f : Nat} {o n : JValue} {p : String}
    (hf : jsize o ≤ f + 1) :
    rule4Seg (cbcF f) (cbcProtoF f) o n p =
      rule4Seg collectBreakingChanges cbcProto o n p := by
  apply rule4Seg_congr
  · intro kv hkv w cp
    have hs := jsize_propsOf hkv
    exact cbcF_fuel_eq f (jsize kv.2) kv.2 w cp (by omega) (le_refl _)
  · intro kv hkv cp
    have hs := jsize_propsOf hkv
    exact cbcProtoF_fuel_eq f (jsize kv.2) kv.2 cp (by omega) (le_refl _)

theorem rule5Seg_canon {f : Nat} {o n : JValue} {p : String}
    (hf : jsize o ≤ f + 1) :
    rule5Seg (cbcF f) o n p = rule5Seg collectBreakingChanges o n p := by
  apply rule5Seg_congr
  intro kv hkv w cp
  have hs := jsize_fieldsOf hkv
  exact cbcF_fuel_eq f (jsize kv.2) kv.2 w cp (by omega) (le_refl _)

/-- The engine satisfies the literal recursive equation of the source:
the five rule blocks in order, with the engine itself as the recursive
call of rules 4 and 5 (and the `Object.prototype` mode as rule 4's
`__proto__` recursion).  (In particular the JS function terminates on
every input: this total function satisfies its defining equation.) -/
theorem collectBreakingChanges_eq (o n : JValue) (p : String) :
    collectBreakingChanges o n p =
      rule1Seg o n p ++
        (rule2Seg o n p ++
          (rule3Seg o n p ++
            (rule4Seg collectBreakingChanges cbcProto o n p ++
              rule5Seg collectBreakingChanges o n p))) := by
  obtain ⟨f, hf⟩ : ∃ f, jsize o = f + 1 :=
    ⟨jsize o - 1, by have := jsize_pos o; omega⟩
  conv_lhs => rw [collectBreakingChanges, hf]
  rw [cbcF, rule4Seg_canon (by omega), rule5Seg_canon (by omega)]

/-- The engine's recursion on two identical regular subtrees yields no
finding (wrapper of `cbcF_self`, shared by several claims). -/
theorem cbc_self_eq_nil (v : JValue) (p : String) (h : regular v = true) :
    collectBreakingChanges v v p = [] :=
  cbcF_self (jsize v) v p (le_refl _) h

theorem jsStrictEq_str {y : JValue} {n : String} :
    jsStrictEq y (jstr n) = true ↔ y = jstr n := by
  cases y <;> simp [jsStrictEq]

theorem jsIncludes_str_not_mem {l : List JValue} {n : String}
    (h : jstr n ∉ l) : jsIncludes l (jstr n) = false := by
  cases hb : jsIncludes l (jstr n)
  · rfl
  · exfalso
    simp only [jsIncludes, List.any_eq_true] at hb
    obtain ⟨y, hy, he⟩ := hb
    rw [jsStrictEq_str.mp he] at hy
    exact h hy

theorem assocGet_mid_val (xs ys : List (String × JValue)) (k : String)
    (a b : JValue) (c : String) (h : k ≠ c) :
    assocGet (xs ++ (k, a) :: ys) c = assocGet (xs ++ (k, b) :: ys) c :=
  (assocGet_skip_mid xs ys k a c h).trans (assocGet_skip_mid xs ys k b c h).symm

theorem rule2Seg_congr2 {o1 o2 n1 n2 : JValue} {p : String}
    (e1 : getField o1 "additionalProperties" = getField o2 "additionalProperties")
    (e2 : getField n1 "additionalProperties" = getField n2 "additionalProperties") :
    rule2Seg o1 n1 p = rule2Seg o2 n2 p := by
  unfold rule2Seg
  rw [e1, e2]

theorem rule5Seg_new_mid_val (recur : JValue → JValue → String → List String)
    (oldS : JValue) (gsA gsB : List (String × JValue)) (k : String)
    (a b : JValue) (p : String) (hk : specialKey k = true) :
    rule5Seg recur oldS (jobj (gsA ++ (k, a) :: gsB)) p =
      rule5Seg recur oldS (jobj (gsA ++ (k, b) :: gsB)) p := by
  cases oldS with
  | jobj fs =>
    unfold rule5Seg
    dsimp only
    apply listFlat_congr
    intro kv hkv
    cases hsp : specialKey kv.1
    · simp only [hsp, Bool.false_eq_true, if_false]
      by_cases han : kv.1 ∈ ANNOTATION_KEYS
      · simp [han]
      · simp only [han, if_false]
        have hne : k ≠ kv.1 := by
          intro e
          rw [e] at hk
          rw [hk] at hsp
          cases hsp
        rw [assocGet_mid_val gsA gsB k a b kv.1 hne]
    · simp [hsp]
  | jnull => rfl
  | jbool b2 => rfl
  | jnum n2 => rfl
  | jstr s2 => rfl
  | jarr xs2 => rfl

/-- C10.  Findings of rule 3 are produced per `required`-list entry, not
per distinct name: inserting one more occurrence of a name `n` (absent
from the old node's `required` list) anywhere into the new node's
`required` array inserts exactly one more `became required` finding into
the output — in particular a duplicated name yields one finding per
occurrence. -/
theorem c10_required_per_entry (oldS : JValue) (p : String)
    (gsA gsB : List (String × JValue)) (rA rB : List JValue) (n : String)
    (hA : assocGet gsA "required" = none)
    (hOld : jstr n ∉ reqListOf oldS) :
    ∃ A B, collectBreakingChanges oldS
        (jobj (gsA ++ ("required", jarr (rA ++ jstr n :: rB)) :: gsB)) p =
      A ++ becameReqMsg (hereStr p) (jstr n) :: B ∧
      A ++ B = collectBreakingChanges oldS
        (jobj (gsA ++ ("required", jarr (rA ++ rB)) :: gsB)) p := by
  have hreq1 : reqListOf
      (jobj (gsA ++ ("required", jarr (rA ++ jstr n :: rB)) :: gsB)) =
      rA ++ jstr n :: rB := by
    rw [reqListOf_obj, assocGet_append_hit hA]
  have hreq2 : reqListOf (jobj (gsA ++ ("required", jarr (rA ++ rB)) :: gsB)) =
      rA ++ rB := by
    rw [reqListOf_obj, assocGet_append_hit hA]
  have hinc : jsIncludes (reqListOf oldS) (jstr n) = false :=
    jsIncludes_str_not_mem hOld
  have hr3a : rule3Seg oldS
      (jobj (gsA ++ ("required", jarr (rA ++ jstr n :: rB)) :: gsB)) p =
      listFlat rA (fun prop =>
        if jsIncludes (reqListOf oldS) prop then []
        else [becameReqMsg (hereStr p) prop]) ++
      (becameReqMsg (hereStr p) (jstr n) ::
        listFlat rB (fun prop =>
          if jsIncludes (reqListOf oldS) prop then []
          else [becameReqMsg (hereStr p) prop])) := by
    unfold rule3Seg
    rw [hreq1, listFlat_append]
    simp [listFlat, hinc]
  have hr3b : rule3Seg oldS
      (jobj (gsA ++ ("required", jarr (rA ++ rB)) :: gsB)) p =
      listFlat rA (fun prop =>
        if jsIncludes (reqListOf oldS) prop then []
        else [becameReqMsg (hereStr p) prop]) ++
      listFlat rB (fun prop =>
        if jsIncludes (reqListOf oldS) prop then []
        else [becameReqMsg (hereStr p) prop]) := by
    unfold rule3Seg
    rw [hreq2, listFlat_append]
  have e1 : rule1Seg oldS
      (jobj (gsA ++ ("required", jarr (rA ++ jstr n :: rB)) :: gsB)) p =
      rule1Seg oldS (jobj (gsA ++ ("required", jarr (rA ++ rB)) :: gsB)) p :=
    rule1Seg_congr2 rfl rfl
      (by simp only [getField_obj]
          exact assocGet_mid_val gsA gsB "required" (jarr (rA ++ jstr n :: rB))
            (jarr (rA ++ rB)) "type" (by decide)) rfl
  have e2 : rule2Seg oldS
      (jobj (gsA ++ ("required", jarr (rA ++ jstr n :: rB)) :: gsB)) p =
      rule2Seg oldS (jobj (gsA ++ ("required", jarr (rA ++ rB)) :: gsB)) p :=
    rule2Seg_congr2 rfl
      (by simp only [getField_obj]
          exact assocGet_mid_val gsA gsB "required" (jarr (rA ++ jstr n :: rB))
            (jarr (rA ++ rB)) "additionalProperties" (by decide))
  have e4 : rule4Seg collectBreakingChanges cbcProto oldS
      (jobj (gsA ++ ("required", jarr (rA ++ jstr n :: rB)) :: gsB)) p =
      rule4Seg collectBreakingChanges cbcProto oldS
        (jobj (gsA ++ ("required", jarr (rA ++ rB)) :: gsB)) p :=
    rule4Seg_congr2 rfl
      (by rw [propsOf_obj, propsOf_obj,
            assocGet_mid_val gsA gsB "required" (jarr (rA ++ jstr n :: rB))
              (jarr (rA ++ rB)) "properties" (by decide)])
  have e5 : rule5Seg collectBreakingChanges oldS
      (jobj (gsA ++ ("required", jarr (rA ++ jstr n :: rB)) :: gsB)) p =
      rule5Seg collectBreakingChanges oldS
        (jobj (gsA ++ ("required", jarr (rA ++ rB)) :: gsB)) p :=
    rule5Seg_new_mid_val collectBreakingChanges oldS gsA gsB "required"
      (jarr (rA ++ jstr n :: rB)) (jarr (rA ++ rB)) p (by decide)
  refine ⟨rule1Seg oldS (jobj (gsA ++ ("required", jarr (rA ++ rB)) :: gsB)) p ++
      (rule2Seg oldS (jobj (gsA ++ ("required", jarr (rA ++ rB)) :: gsB)) p ++
        listFlat rA (fun prop =>
          if jsIncludes (reqListOf oldS) prop then []
          else [becameReqMsg (hereStr p) prop])),
    listFlat rB (fun prop =>
      if jsIncludes (reqListOf oldS) prop then []
      else [becameReqMsg (hereStr p) prop]) ++
      (rule4Seg collectBreakingChanges cbcProto oldS
        (jobj (gsA ++ ("required", jarr (rA ++ rB)) :: gsB)) p ++
       rule5Seg collectBreakingChanges oldS
        (jobj (gsA ++ ("required", jarr (rA ++ rB)) :: gsB)) p), ?_, ?_⟩
  · rw [collectBreakingChanges_eq, hr3a, e1, e2, e4, e5]
    simp [List.append_assoc]
  · rw [collectBreakingChanges_eq, hr3b]
    simp [List.append_assoc]

/-- C10 witness: duplicating `"a"` in the new `required` list — one more
occurrence inserts one more finding (here on top of the first
occurrence's finding). -/
theorem c10_witness :
    ∃ A B, collectBreakingChanges (jobj [])
        (jobj [("required", jarr [jstr "a", jstr "a"])]) "" =
      A ++ becameReqMsg (hereStr "") (jstr "a") :: B ∧
      A ++ B = collectBreakingChanges (jobj [])
        (jobj [("required", jarr [jstr "a"])]) "" :=
  c10_required_per_entry (jobj []) "" [] [] [jstr "a"] [] "a" rfl
    (by simp [reqListOf, getField, assocGet])

end SchemaDiff

namespace SchemaDiff

open JValue

theorem rule5Seg_old_mid_special (recur : JValue → JValue → String → List String)
    (fsA fsB : List (String × JValue)) (k : String) (a b : JValue)
    (newS : JValue) (p : String) (hk : specialKey k = true) :
    rule5Seg recur (jobj (fsA ++ (k, a) :: fsB)) newS p =
      rule5Seg recur (jobj (fsA ++ (k, b) :: fsB)) newS p :=
  (rule5Seg_mid_special recur fsA fsB k a newS p hk).trans
    (rule5Seg_mid_special recur fsA fsB k b newS p hk).symm

/-- C2 (amended).  For every property key `k` present in the old node's
`properties` map, absent from the new node's, and not a member name of
`Object.prototype`, the engine emits exactly one finding for `k`: its
output is the output of the same comparison with `k`'s entry deleted
from the old `properties` map, with the single finding
`<path>: property "k" was removed` (reported at the parent path, not
below it) inserted — and the prefix `A` and suffix `B` do not depend on
`k`'s sub-schema, so the engine does not recurse into the removed
property's content.  The exclusion of `Object.prototype` member names
is forced: the source tests removal with the JS `in` operator, which
finds the inherited member for keys such as `"toString"`, so the engine
emits no removal finding there and instead recurses into the inherited
value (see the counterexample). -/
theorem c2_property_removed (fsA fsB psA psB : List (String × JValue))
    (k : String) (newS : JValue) (p : String)
    (hA : assocGet fsA "properties" = none)
    (hk : assocGet (propsOf newS) k = none)
    (hkp : k ∉ PROTO_KEYS) :
    ∃ A B, (∀ v, collectBreakingChanges
        (jobj (fsA ++ ("properties", jobj (psA ++ (k, v) :: psB)) :: fsB))
        newS p = A ++ removedPropMsg (hereStr p) k :: B) ∧
      A ++ B = collectBreakingChanges
        (jobj (fsA ++ ("properties", jobj (psA ++ psB)) :: fsB)) newS p := by
  refine ⟨rule1Seg (jobj (fsA ++ ("properties", jobj (psA ++ psB)) :: fsB)) newS p ++
      (rule2Seg (jobj (fsA ++ ("properties", jobj (psA ++ psB)) :: fsB)) newS p ++
        (rule3Seg (jobj (fsA ++ ("properties", jobj (psA ++ psB)) :: fsB)) newS p ++
          listFlat psA (fun kv =>
            match assocGet (propsOf newS) kv.1 with
            | none =>
              if kv.1 ∈ PROTO_KEYS then
                if kv.1 = "__proto__" then cbcProto kv.2 (propPath p kv.1)
                else collectBreakingChanges kv.2 jnull (propPath p kv.1)
              else [removedPropMsg (hereStr p) kv.1]
            | some w => collectBreakingChanges kv.2 w (propPath p kv.1)))),
    listFlat psB (fun kv =>
      match assocGet (propsOf newS) kv.1 with
      | none =>
        if kv.1 ∈ PROTO_KEYS then
          if kv.1 = "__proto__" then cbcProto kv.2 (propPath p kv.1)
          else collectBreakingChanges kv.2 jnull (propPath p kv.1)
        else [removedPropMsg (hereStr p) kv.1]
      | some w => collectBreakingChanges kv.2 w (propPath p kv.1)) ++
      rule5Seg collectBreakingChanges
        (jobj (fsA ++ ("properties", jobj (psA ++ psB)) :: fsB)) newS p,
    ?_, ?_⟩
  · intro v
    have e1 : rule1Seg
        (jobj (fsA ++ ("properties", jobj (psA ++ (k, v) :: psB)) :: fsB)) newS p =
        rule1Seg (jobj (fsA ++ ("properties", jobj (psA ++ psB)) :: fsB)) newS p :=
      rule1Seg_congr2
        (by simp only [getField_obj]
            exact assocGet_mid_val fsA fsB "properties"
              (jobj (psA ++ (k, v) :: psB)) (jobj (psA ++ psB)) "type"
              (by decide))
        rfl rfl rfl
    have e2 : rule2Seg
        (jobj (fsA ++ ("properties", jobj (psA ++ (k, v) :: psB)) :: fsB)) newS p =
        rule2Seg (jobj (fsA ++ ("properties", jobj (psA ++ psB)) :: fsB)) newS p :=
      rule2Seg_congr2
        (by simp only [getField_obj]
            exact assocGet_mid_val fsA fsB "properties"
              (jobj (psA ++ (k, v) :: psB)) (jobj (psA ++ psB))
              "additionalProperties" (by decide))
        rfl
    have e3 : rule3Seg
        (jobj (fsA ++ ("properties", jobj (psA ++ (k, v) :: psB)) :: fsB)) newS p =
        rule3Seg (jobj (fsA ++ ("properties", jobj (psA ++ psB)) :: fsB)) newS p :=
      rule3Seg_congr2
        (by rw [reqListOf_obj, reqListOf_obj,
              assocGet_mid_val fsA fsB "properties"
                (jobj (psA ++ (k, v) :: psB)) (jobj (psA ++ psB)) "required"
                (by decide)])
        rfl
    have e5 : rule5Seg collectBreakingChanges
        (jobj (fsA ++ ("properties", jobj (psA ++ (k, v) :: psB)) :: fsB)) newS p =
        rule5Seg collectBreakingChanges
          (jobj (fsA ++ ("properties", jobj (psA ++ psB)) :: fsB)) newS p :=
      rule5Seg_old_mid_special collectBreakingChanges fsA fsB "properties"
        (jobj (psA ++ (k, v) :: psB)) (jobj (psA ++ psB)) newS p (by decide)
    have hp1 : propsOf
        (jobj (fsA ++ ("properties", jobj (psA ++ (k, v) :: psB)) :: fsB)) =
        psA ++ (k, v) :: psB := by
      rw [propsOf_obj, assocGet_append_hit hA]
    rw [collectBreakingChanges_eq, e1, e2, e3, e5]
    unfold rule4Seg
    rw [hp1, listFlat_append]
    simp only [listFlat, hk]
    rw [if_neg hkp]
    simp [List.append_assoc]
  · have hp2 : propsOf (jobj (fsA ++ ("properties", jobj (psA ++ psB)) :: fsB)) =
        psA ++ psB := by
      rw [propsOf_obj, assocGet_append_hit hA]
    rw [collectBreakingChanges_eq]
    unfold rule4Seg
    rw [hp2, listFlat_append]
    simp [List.append_assoc]

/-- C2 witness: example scenario 1 shape — old
`{"type":"object","properties":{"a":{"type":"string"}}}` against the
same schema with `a` removed: the finding sequence is the removal-free
output with `<root>: property "a" was removed` inserted, independent of
`a`'s sub-schema. -/
theorem c2_witness :
    ∃ A B, (∀ v, collectBreakingChanges
        (jobj [("type", jstr "object"), ("properties", jobj [("a", v)])])
        (jobj [("type", jstr "object"), ("properties", jobj [])]) "" =
      A ++ removedPropMsg (hereStr "") "a" :: B) ∧
      A ++ B = collectBreakingChanges
        (jobj [("type", jstr "object"), ("properties", jobj [])])
        (jobj [("type", jstr "object"), ("properties", jobj [])]) "" :=
  c2_property_removed [("type", jstr "object")] [] [] [] "a"
    (jobj [("type", jstr "object"), ("properties", jobj [])]) "" rfl rfl
    (by decide)

/-- C2 counterexample (against the unrestricted claim).  Removing the
old property `"toString"` — a member name of `Object.prototype` —
produces no `was removed` finding at all: the `in` test of rule 4 finds
the inherited `Object.prototype.toString`, and the engine recurses into
that built-in function as the new-side node, so the output is instead a
rule-2 finding that depends on the removed property's content. -/
theorem c2_counterexample :
    collectBreakingChanges
      (jobj [("properties", jobj [("toString",
        jobj [("additionalProperties", jbool false)])])])
      (jobj [("properties", jobj [])]) "" =
      ["properties.toString: additionalProperties changed from false to undefined"] := by
  decide

end SchemaDiff

namespace SchemaDiff

open JValue

theorem rule1Seg_nil_keep {o n : JValue} {p : String}
    (hreg : regular o = true)
    (he : ∀ t, getField o "type" = some t → getField n "type" = some t) :
    rule1Seg o n p = [] := by
  unfold rule1Seg
  cases ht : getField o "type" with
  | none => cases getField n "type" <;> rfl
  | some t =>
    rw [he t ht]
    cases htr : truthy t
    · simp [htr]
    · cases o with
      | jobj fs =>
        have hc := (reg_parts hreg).2.1
        unfold typeCondB at hc
        rw [getField_obj] at ht
        rw [ht] at hc
        simp only [htr, Bool.true_and, Bool.not_eq_true'] at hc
        have hp : primV t = true := by
          cases hpv : primV t
          · rw [hpv] at hc; simp at hc
          · rfl
        simp [jsStrictEq_refl hp]
      | jnull => simp [getField] at ht
      | jbool b => simp [getField] at ht
      | jnum n2 => simp [getField] at ht
      | jstr s => simp [getField] at ht
      | jarr xs => simp [getField] at ht

theorem rule2Seg_nil_same {o n : JValue} {p : String}
    (he : getField n "additionalProperties" = getField o "additionalProperties") :
    rule2Seg o n p = [] := by
  unfold rule2Seg
  rw [he]
  simp

theorem rule3Seg_nil_sub {o n : JValue} {p : String}
    (hreg : regular o = true)
    (hsub : ∀ x ∈ reqListOf n, x ∈ reqListOf o) :
    rule3Seg o n p = [] := by
  unfold rule3Seg
  apply listFlat_eq_nil
  intro x hx
  simp [jsIncludes_self (hsub x hx) (reqList_prim hreg (hsub x hx))]

theorem rule4Seg_nil_keep {o n : JValue} {p : String}
    (hreg : regular o = true)
    (hProps : ∀ kv ∈ propsOf o, assocGet (propsOf n) kv.1 = some kv.2) :
    rule4Seg collectBreakingChanges cbcProto o n p = [] := by
  unfold rule4Seg
  apply listFlat_eq_nil
  intro kv hkv
  rw [hProps kv hkv]
  exact cbc_self_eq_nil kv.2 _
    (regularO_mem (reg_parts (regular_propsOf hreg)).2.2.2 hkv)

theorem rule5Seg_nil_keep {o n : JValue} {p : String}
    (hreg : regular o = true)
    (hKw : ∀ kv ∈ fieldsOf o, specialKey kv.1 = false →
      kv.1 ∉ ANNOTATION_KEYS → assocGet (fieldsOf n) kv.1 = some kv.2) :
    rule5Seg collectBreakingChanges o n p = [] := by
  cases o with
  | jobj fs =>
    cases n with
    | jobj gs =>
      unfold rule5Seg
      dsimp only
      apply listFlat_eq_nil
      intro kv hkv
      obtain ⟨k, v2⟩ := kv
      have hkv2 : (k, v2) ∈ fieldsOf (jobj fs) := by simpa [fieldsOf] using hkv
      cases hsp : specialKey k
      · simp only [hsp, Bool.false_eq_true, if_false]
        by_cases han : k ∈ ANNOTATION_KEYS
        · simp [han]
        · simp only [han, if_false]
          have hget : assocGet gs k = some v2 := by
            have := hKw (k, v2) hkv2 hsp han
            simpa [fieldsOf] using this
          simp only [hget]
          have hr2 : regular v2 = true :=
            regularO_mem (reg_parts hreg).2.2.2 hkv
          cases v2 <;> simp
          exact cbc_self_eq_nil _ _ hr2
      · simp [hsp]
    | jnull => rfl
    | jbool b => rfl
    | jnum n2 => rfl
    | jstr s => rfl
    | jarr xs => rfl
  | jnull => rfl
  | jbool b => rfl
  | jnum n2 => rfl
  | jstr s => rfl
  | jarr xs => rfl

theorem assocGet_append_none {xs ys : List (String × JValue)} {k : String}
    (h1 : assocGet xs k = none) (h2 : assocGet ys k = none) :
    assocGet (xs ++ ys) k = none := by
  induction xs with
  | nil => exact h2
  | cons hd tl ih =>
    by_cases e : hd.1 = k
    · simp [assocGet, e] at h1
    · simp only [assocGet, if_neg e] at h1 ⊢
      exact ih h1

/-- C7 (amended).  Additive safety holds for additions other than
`required` and `additionalProperties`, on regular old schemas: if the
new node keeps every old keyword with an identical value (`type` may
also be newly added), keeps the old `required` and
`additionalProperties` unchanged, and keeps every old property with an
identical sub-schema, then however many new properties and new keywords
the new node adds, the comparison yields no finding.  (Adding the
keywords `required` or `additionalProperties` *does* produce findings,
see the counterexample — rules 2 and 3 are not additions-are-safe
rules.) -/
theorem c7_additive_safety (oldS newS : JValue) (p : String)
    (hreg : regular oldS = true)
    (hType : ∀ t, getField oldS "type" = some t → getField newS "type" = some t)
    (hAP : getField newS "additionalProperties" =
      getField oldS "additionalProperties")
    (hReq : reqListOf newS = reqListOf oldS)
    (hProps : ∀ kv ∈ propsOf oldS, assocGet (propsOf newS) kv.1 = some kv.2)
    (hKw : ∀ kv ∈ fieldsOf oldS, specialKey kv.1 = false →
      kv.1 ∉ ANNOTATION_KEYS → assocGet (fieldsOf newS) kv.1 = some kv.2) :
    collectBreakingChanges oldS newS p = [] := by
  rw [collectBreakingChanges_eq, rule1Seg_nil_keep hreg hType,
    rule2Seg_nil_same hAP,
    rule3Seg_nil_sub hreg (by rw [hReq]; exact fun x h => h),
    rule4Seg_nil_keep hreg hProps, rule5Seg_nil_keep hreg hKw]
  rfl

/-- C7 witness: new node adds a property `b`, a keyword `maximum` and an
annotation `description` to the old schema — no finding. -/
theorem c7_witness :
    collectBreakingChanges
      (jobj [("properties", jobj [("a", jobj [("type", jstr "string")])]),
        ("minimum", jnum 1)])
      (jobj [("properties", jobj [("a", jobj [("type", jstr "string")]),
          ("b", jobj [("type", jstr "number")])]),
        ("minimum", jnum 1), ("maximum", jnum 9),
        ("description", jstr "extended")]) "" = [] := by
  apply c7_additive_safety
  · decide
  · intro t ht
    simp [getField, assocGet] at ht
  · rfl
  · rfl
  · intro kv hkv
    have he : kv = ("a", jobj [("type", jstr "string")]) := by
      simpa [propsOf, getField, assocGet] using hkv
    subst he
    rfl
  · intro kv hkv hsp han
    simp only [fieldsOf] at hkv
    rcases List.mem_cons.mp hkv with h1 | h2
    · subst h1
      simp [specialKey] at hsp
    · rcases List.mem_cons.mp h2 with h3 | h4
      · subst h3
        rfl
      · cases h4

/-- C7 counterexample: the claim "adding a new keyword absent from the
old node never produces a finding" fails for the keywords
`additionalProperties` and `required`: adding either to an empty old
schema produces a finding. -/
theorem c7_counterexample :
    collectBreakingChanges (jobj []) (jobj [("additionalProperties", jbool false)]) "" =
      ["<root>: additionalProperties changed from undefined to false"] ∧
    collectBreakingChanges (jobj []) (jobj [("required", jarr [jstr "x"])]) "" =
      ["<root>: property \"x\" became required"] :=
  ⟨by decide, by decide⟩

/-- C3 (amended).  Required-tightening: (1) for every property name
present in the new node's `required` list and absent from the old one,
the engine emits the `became required` finding; (2) example scenario 3
yields exactly that one finding; (3) on a *regular* old schema, removing
entries from `required` (any sub-multiset, which also covers
reordering), or removing the `required` keyword entirely, while leaving
the rest of the schema unchanged, produces no finding.  (Without
regularity, clause (3) fails — see the counterexample, where a
reference-compared composite `type` value makes a pure `required`
reorder produce a finding.) -/
theorem c3_required_tightening :
    (∀ oldS newS : JValue, ∀ p : String, ∀ n : String,
      jstr n ∈ reqListOf newS → jstr n ∉ reqListOf oldS →
      becameReqMsg (hereStr p) (jstr n) ∈ collectBreakingChanges oldS newS p) ∧
    collectBreakingChanges (jobj [("properties", jobj [("b", jobj [("type", jstr "string")])])])
      (jobj [("properties", jobj [("b", jobj [("type", jstr "string")])]),
        ("required", jarr [jstr "b"])]) "" =
      ["<root>: property \"b\" became required"] ∧
    (∀ p : String, ∀ hsA hsB : List (String × JValue), ∀ r r2 : List JValue,
      regular (jobj (hsA ++ ("required", jarr r) :: hsB)) = true →
      assocGet hsA "required" = none → assocGet hsB "required" = none →
      (∀ x ∈ r2, x ∈ r) →
      collectBreakingChanges (jobj (hsA ++ ("required", jarr r) :: hsB))
        (jobj (hsA ++ ("required", jarr r2) :: hsB)) p = [] ∧
      collectBreakingChanges (jobj (hsA ++ ("required", jarr r) :: hsB))
        (jobj (hsA ++ hsB)) p = []) := by
  refine ⟨?_, by decide, ?_⟩
  · intro oldS newS p n hmem habs
    rw [collectBreakingChanges_eq]
    have hmsg : becameReqMsg (hereStr p) (jstr n) ∈ rule3Seg oldS newS p := by
      unfold rule3Seg
      apply mem_listFlat hmem
      rw [jsIncludes_str_not_mem habs]
      simp
    exact List.mem_append.mpr (Or.inr (List.mem_append.mpr (Or.inr
      (List.mem_append.mpr (Or.inl hmsg)))))
  · intro p hsA hsB r r2 hreg hA hB hsub
    have hreq : reqListOf (jobj (hsA ++ ("required", jarr r) :: hsB)) = r := by
      rw [reqListOf_obj, assocGet_append_hit hA]
    have hnd : nodupKeysB (hsA ++ ("required", jarr r) :: hsB) = true :=
      (reg_parts hreg).1
    constructor
    · have heT : getField (jobj (hsA ++ ("required", jarr r2) :: hsB)) "type" =
          getField (jobj (hsA ++ ("required", jarr r) :: hsB)) "type" := by
        simp only [getField_obj]
        exact assocGet_mid_val hsA hsB "required" (jarr r2) (jarr r) "type"
          (by decide)
      have heA : getField (jobj (hsA ++ ("required", jarr r2) :: hsB))
          "additionalProperties" =
          getField (jobj (hsA ++ ("required", jarr r) :: hsB))
            "additionalProperties" := by
        simp only [getField_obj]
        exact assocGet_mid_val hsA hsB "required" (jarr r2) (jarr r)
          "additionalProperties" (by decide)
      have heP : propsOf (jobj (hsA ++ ("required", jarr r2) :: hsB)) =
          propsOf (jobj (hsA ++ ("required", jarr r) :: hsB)) := by
        rw [propsOf_obj, propsOf_obj,
          assocGet_mid_val hsA hsB "required" (jarr r2) (jarr r) "properties"
            (by decide)]
      rw [collectBreakingChanges_eq,
        rule1Seg_nil_keep hreg (fun t ht => heT.symm ▸ ht),
        rule2Seg_nil_same heA,
        rule3Seg_nil_sub hreg (by
          rw [reqListOf_obj, assocGet_append_hit hA, hreq]
          exact hsub),
        rule4Seg_nil_keep hreg (by
          rw [heP]
          exact fun kv hkv => assocGet_of_mem_nodup
            (reg_parts (regular_propsOf hreg)).1 hkv),
        rule5Seg_nil_keep hreg (by
          intro kv hkv hsp han
          simp only [fieldsOf] at hkv ⊢
          have hne : "required" ≠ kv.1 := by
            intro e
            rw [← e] at hsp
            simp [specialKey] at hsp
          rw [assocGet_mid_val hsA hsB "required" (jarr r2) (jarr r) kv.1 hne]
          exact assocGet_of_mem_nodup hnd hkv)]
      rfl
    · have heT : getField (jobj (hsA ++ hsB)) "type" =
          getField (jobj (hsA ++ ("required", jarr r) :: hsB)) "type" := by
        simp only [getField_obj]
        exact (assocGet_skip_mid hsA hsB "required" (jarr r) "type"
          (by decide)).symm
      have heA : getField (jobj (hsA ++ hsB)) "additionalProperties" =
          getField (jobj (hsA ++ ("required", jarr r) :: hsB))
            "additionalProperties" := by
        simp only [getField_obj]
        exact (assocGet_skip_mid hsA hsB "required" (jarr r)
          "additionalProperties" (by decide)).symm
      have heP : propsOf (jobj (hsA ++ hsB)) =
          propsOf (jobj (hsA ++ ("required", jarr r) :: hsB)) := by
        rw [propsOf_obj, propsOf_obj,
          assocGet_skip_mid hsA hsB "required" (jarr r) "properties"
            (by decide)]
      rw [collectBreakingChanges_eq,
        rule1Seg_nil_keep hreg (fun t ht => heT.symm ▸ ht),
        rule2Seg_nil_same heA,
        rule3Seg_nil_sub hreg (by
          rw [reqListOf_obj, assocGet_append_none hA hB]
          intro x hx
          cases hx),
        rule4Seg_nil_keep hreg (by
          rw [heP]
          exact fun kv hkv => assocGet_of_mem_nodup
            (reg_parts (regular_propsOf hreg)).1 hkv),
        rule5Seg_nil_keep hreg (by
          intro kv hkv hsp han
          simp only [fieldsOf] at hkv ⊢
          have hne : "required" ≠ kv.1 := by
            intro e
            rw [← e] at hsp
            simp [specialKey] at hsp
          rw [← assocGet_skip_mid hsA hsB "required" (jarr r) kv.1 hne]
          exact assocGet_of_mem_nodup hnd hkv)]
      rfl

/-- C3 witness: clause (1) at scenario 3, and clause (3) at a concrete
schema — dropping `"b"` from `required` (and separately dropping the
whole keyword) yields no finding. -/
theorem c3_witness :
    becameReqMsg (hereStr "") (jstr "b") ∈
      collectBreakingChanges (jobj [("properties", jobj [("b", jobj [("type", jstr "string")])])])
        (jobj [("properties", jobj [("b", jobj [("type", jstr "string")])]),
          ("required", jarr [jstr "b"])]) "" ∧
    (collectBreakingChanges (jobj [("required", jarr [jstr "a", jstr "b"]), ("type", jstr "object")])
        (jobj [("required", jarr [jstr "b"]), ("type", jstr "object")]) "" = [] ∧
      collectBreakingChanges (jobj [("required", jarr [jstr "a", jstr "b"]), ("type", jstr "object")])
        (jobj [("type", jstr "object")]) "" = []) :=
  ⟨c3_required_tightening.1 _ _ "" "b" (by simp [reqListOf, getField, assocGet])
      (by simp [reqListOf, getField, assocGet]),
    c3_required_tightening.2.2 "" [] [("type", jstr "object")]
      [jstr "a", jstr "b"] [jstr "b"] (by decide) rfl rfl
      (by intro x hx; simp only [List.mem_singleton] at hx; subst hx; simp)⟩

/-- C3 counterexample: the claim "reordering `required` never produces a
finding" fails on a schema whose `type` value is an array: the reorder
leaves `type` untouched, yet rule 1's reference comparison of the two
parsed arrays reports a type change, so the output is not empty. -/
theorem c3_counterexample :
    collectBreakingChanges
      (jobj [("type", jarr [jstr "x"]), ("required", jarr [jstr "a", jstr "b"])])
      (jobj [("type", jarr [jstr "x"]), ("required", jarr [jstr "b", jstr "a"])])
      "" ≠ [] := by decide

end SchemaDiff

namespace SchemaDiff

open JValue

theorem stripFields_cons (kv : String × JValue) (fs : List (String × JValue)) :
    stripFields (kv :: fs) =
      if kv.1 ∈ ANNOTATION_KEYS then stripFields fs
      else (kv.1, stripVal kv.1 kv.2) :: stripFields fs := by
  obtain ⟨k, v⟩ := kv
  by_cases han : k ∈ ANNOTATION_KEYS
  · simp [stripFields, han]
  · by_cases hp : k = "properties"
    · simp [stripFields, han, hp, stripVal]
    · by_cases hs : specialKey k
      · simp [stripFields, han, hp, hs, stripVal]
      · cases v <;> simp [stripFields, han, hp, hs, stripVal]

theorem stripFields_nil_annot {gs : List (String × JValue)}
    (h : stripFields gs = []) : ∀ kv ∈ gs, kv.1 ∈ ANNOTATION_KEYS := by
  induction gs with
  | nil => intro kv hkv; cases hkv
  | cons hd tl ih =>
    intro kv hkv
    rw [stripFields_cons] at h
    by_cases han : hd.1 ∈ ANNOTATION_KEYS
    · rw [if_pos han] at h
      rcases List.mem_cons.mp hkv with h1 | h2
      · subst h1; exact han
      · exact ih h kv h2
    · rw [if_neg han] at h
      cases h

theorem assocGet_all_annot {gs : List (String × JValue)} {k : String}
    (hall : ∀ kv ∈ gs, kv.1 ∈ ANNOTATION_KEYS) (hk : k ∉ ANNOTATION_KEYS) :
    assocGet gs k = none := by
  induction gs with
  | nil => rfl
  | cons hd tl ih =>
    have hne : hd.1 ≠ k := by
      intro e
      exact hk (e ▸ hall hd (List.mem_cons_self _ _))
    simp only [assocGet, if_neg hne]
    exact ih (fun kv hkv => hall kv (List.mem_cons_of_mem _ hkv))

theorem stripFields_cons_inv {gs : List (String × JValue)} {a : String}
    {b : JValue} {rest : List (String × JValue)}
    (h : stripFields gs = (a, b) :: rest) :
    ∃ gsA w gs2, gs = gsA ++ (a, w) :: gs2 ∧
      (∀ kv ∈ gsA, kv.1 ∈ ANNOTATION_KEYS) ∧ stripVal a w = b ∧
      stripFields gs2 = rest := by
  induction gs with
  | nil => cases h
  | cons hd tl ih =>
    obtain ⟨k0, v0⟩ := hd
    rw [stripFields_cons] at h
    dsimp only at h
    by_cases han : k0 ∈ ANNOTATION_KEYS
    · rw [if_pos han] at h
      obtain ⟨gsA, w, gs2, he, hall, hv, hr⟩ := ih h
      refine ⟨(k0, v0) :: gsA, w, gs2, by rw [he]; rfl, ?_, hv, hr⟩
      intro kv hkv
      rcases List.mem_cons.mp hkv with h1 | h2
      · subst h1; exact han
      · exact hall kv h2
    · rw [if_neg han] at h
      obtain ⟨h1, h2⟩ := List.cons.inj h
      obtain ⟨h1a, h1b⟩ := Prod.mk.inj h1
      subst h1a
      exact ⟨[], v0, tl, rfl, fun kv hkv => absurd hkv (List.not_mem_nil kv),
        h1b, h2⟩

theorem assocGet_annot_front {gsA gs2 : List (String × JValue)} {k : String}
    (hall : ∀ kv ∈ gsA, kv.1 ∈ ANNOTATION_KEYS) (hk : k ∉ ANNOTATION_KEYS) :
    assocGet (gsA ++ gs2) k = assocGet gs2 k := by
  induction gsA with
  | nil => rfl
  | cons hd tl ih =>
    have hne : hd.1 ≠ k := by
      intro e
      exact hk (e ▸ hall hd (List.mem_cons_self _ _))
    simp only [List.cons_append, assocGet, if_neg hne]
    exact ih (fun kv hkv => hall kv (List.mem_cons_of_mem _ hkv))

theorem stripFields_lookup : ∀ fs gs : List (String × JValue), ∀ k : String,
    stripFields fs = stripFields gs → k ∉ ANNOTATION_KEYS →
    (assocGet fs k).map (stripVal k) = (assocGet gs k).map (stripVal k) := by
  intro fs
  induction fs with
  | nil =>
    intro gs k h hk
    have hall := @stripFields_nil_annot gs (by rw [← h]; rfl)
    rw [assocGet_all_annot hall hk]
    rfl
  | cons hd tl ih =>
    intro gs k h hk
    obtain ⟨k0, v0⟩ := hd
    rw [stripFields_cons] at h
    dsimp only at h
    by_cases han : k0 ∈ ANNOTATION_KEYS
    · rw [if_pos han] at h
      have hne : k0 ≠ k := fun e => hk (e ▸ han)
      simp only [assocGet, if_neg hne]
      exact ih gs k h hk
    · rw [if_neg han] at h
      obtain ⟨gsA, w, gs2, he, hall, hv, hr⟩ := stripFields_cons_inv h.symm
      subst he
      rw [assocGet_annot_front hall hk]
      by_cases hke : k0 = k
      · subst hke
        simp [assocGet, hv]
      · simp only [assocGet, if_neg hke]
        exact ih gs2 k hr.symm hk

theorem stripPList_cons_inv {qs : List (String × JValue)} {a : String}
    {b : JValue} {rest : List (String × JValue)}
    (h : stripPList qs = (a, b) :: rest) :
    ∃ w qs2, qs = (a, w) :: qs2 ∧ stripAnn w = b ∧ stripPList qs2 = rest := by
  cases qs with
  | nil => cases h
  | cons hd tl =>
    simp only [stripPList] at h
    obtain ⟨h1, h2⟩ := List.cons.inj h
    obtain ⟨h1a, h1b⟩ := Prod.mk.inj h1
    exact ⟨hd.2, tl, by rw [← h1a], h1b, h2⟩

theorem stripPList_lookup : ∀ ps qs : List (String × JValue),
    stripPList ps = stripPList qs → nodupKeysB ps = true →
    ∀ kv ∈ ps, ∃ w, assocGet qs kv.1 = some w ∧ stripAnn kv.2 = stripAnn w := by
  intro ps
  induction ps with
  | nil => intro qs h hnd kv hkv; cases hkv
  | cons hd tl ih =>
    intro qs h hnd kv hkv
    simp only [stripPList] at h
    obtain ⟨w, qs2, he, hw, hr⟩ := stripPList_cons_inv h.symm
    subst he
    simp only [nodupKeysB, Bool.and_eq_true, Bool.not_eq_true'] at hnd
    rcases List.mem_cons.mp hkv with h1 | h2
    · subst h1
      exact ⟨w, by simp [assocGet], hw.symm⟩
    · have hne : hd.1 ≠ kv.1 := by
        intro e
        rw [e, hasKeyB_of_mem h2] at hnd
        exact absurd hnd.1 (by simp)
      obtain ⟨w2, hg, hs⟩ := ih qs2 hr.symm hnd.2 kv h2
      exact ⟨w2, by simpa [assocGet, if_neg hne] using hg, hs⟩

end SchemaDiff

namespace SchemaDiff

open JValue

theorem stripAnn_eq_nonobj {o n : JValue} (ho : isObject o = false)
    (h : stripAnn o = stripAnn n) : o = n := by
  cases o with
  | jobj fs => simp [isObject] at ho
  | jnull => cases n <;> simp_all [stripAnn]
  | jbool b => cases n <;> simp_all [stripAnn]
  | jnum m => cases n <;> simp_all [stripAnn]
  | jstr s => cases n <;> simp_all [stripAnn]
  | jarr xs => cases n <;> simp_all [stripAnn]

theorem map_stripVal_eq_of_id {k : String} (hid : ∀ v, stripVal k v = v)
    {x y : Option JValue} (h : x.map (stripVal k) = y.map (stripVal k)) :
    x = y := by
  calc x = x.map (stripVal k) := by cases x <;> simp [hid]
    _ = y.map (stripVal k) := h
    _ = y := by cases y <;> simp [hid]

theorem cbc_strip_nil : ∀ N oldS newS p, jsize oldS ≤ N →
    regular oldS = true → stripAnn oldS = stripAnn newS →
    collectBreakingChanges oldS newS p = [] := by
  intro N
  induction N with
  | zero =>
    intro o n p h _ _
    exact absurd h (by have := jsize_pos o; omega)
  | succ N ih =>
    intro oldS newS p hsz hreg hstrip
    cases hobj : isObject oldS with
    | false =>
      obtain rfl := stripAnn_eq_nonobj hobj hstrip
      exact cbc_self_eq_nil oldS p hreg
    | true =>
      obtain ⟨fs, rfl⟩ : ∃ fs, oldS = jobj fs := by
        cases oldS <;> simp [isObject] at hobj
        exact ⟨_, rfl⟩
      cases newS with
      | jnull => simp [stripAnn] at hstrip
      | jbool b => simp [stripAnn] at hstrip
      | jnum m => simp [stripAnn] at hstrip
      | jstr s => simp [stripAnn] at hstrip
      | jarr xs => simp [stripAnn] at hstrip
      | jobj gs =>
        have hSF : stripFields fs = stripFields gs := by
          simpa [stripAnn] using hstrip
        have hTy : assocGet fs "type" = assocGet gs "type" :=
          map_stripVal_eq_of_id (fun v => by simp [stripVal, specialKey])
            (stripFields_lookup fs gs "type" hSF (by decide))
        have hAPe : assocGet fs "additionalProperties" =
            assocGet gs "additionalProperties" :=
          map_stripVal_eq_of_id (fun v => by simp [stripVal, specialKey])
            (stripFields_lookup fs gs "additionalProperties" hSF (by decide))
        have hRq : assocGet fs "required" = assocGet gs "required" :=
          map_stripVal_eq_of_id (fun v => by simp [stripVal, specialKey])
            (stripFields_lookup fs gs "required" hSF (by decide))
        have hr4 : rule4Seg collectBreakingChanges cbcProto
            (jobj fs) (jobj gs) p = [] := by
          unfold rule4Seg
          apply listFlat_eq_nil
          intro kv hkv
          have hkv0 := hkv
          rw [propsOf_obj] at hkv
          cases hp : assocGet fs "properties" with
          | none => rw [hp] at hkv; cases hkv
          | some w =>
            rw [hp] at hkv
            cases w with
            | jobj ps =>
              have hppo : propsOf (jobj fs) = ps := by rw [propsOf_obj, hp]
              have hregps : regular (jobj ps) = true := by
                rw [← hppo]; exact regular_propsOf hreg
              have hPm := stripFields_lookup fs gs "properties" hSF (by decide)
              rw [hp] at hPm
              cases hq : assocGet gs "properties" with
              | none => rw [hq] at hPm; simp at hPm
              | some w2 =>
                rw [hq] at hPm
                simp only [Option.map_some'] at hPm
                cases w2 with
                | jobj qs =>
                  have hPL : stripPList ps = stripPList qs := by
                    simpa [stripVal, stripPropsVal] using hPm
                  have hqs : propsOf (jobj gs) = qs := by rw [propsOf_obj, hq]
                  rw [hqs]
                  obtain ⟨w1, hw1, hs1⟩ :=
                    stripPList_lookup ps qs hPL (reg_parts hregps).1 kv hkv
                  rw [hw1]
                  have hszv : jsize kv.2 < jsize (jobj fs) := by
                    rw [← hppo] at hkv
                    exact jsize_propsOf hkv
                  exact ih kv.2 w1 _ (by omega)
                    (regularO_mem (reg_parts hregps).2.2.2 hkv) hs1
                | jnull => simp [stripVal, stripPropsVal] at hPm
                | jbool b => simp [stripVal, stripPropsVal] at hPm
                | jnum m => simp [stripVal, stripPropsVal] at hPm
                | jstr s => simp [stripVal, stripPropsVal] at hPm
                | jarr ys => simp [stripVal, stripPropsVal] at hPm
            | jnull => cases hkv
            | jbool b => cases hkv
            | jnum m => cases hkv
            | jstr s => cases hkv
            | jarr ys => cases hkv
        have hr5 : rule5Seg collectBreakingChanges (jobj fs) (jobj gs) p = [] := by
          unfold rule5Seg
          dsimp only
          apply listFlat_eq_nil
          intro kv hkv
          obtain ⟨k2, v2⟩ := kv
          cases hsp : specialKey k2
          · simp only [hsp, Bool.false_eq_true, if_false]
            by_cases han : k2 ∈ ANNOTATION_KEYS
            · simp [han]
            · simp only [han, if_false]
              have hg2 : assocGet fs k2 = some v2 :=
                assocGet_of_mem_nodup (reg_parts hreg).1 hkv
              have hm := stripFields_lookup fs gs k2 hSF han
              rw [hg2] at hm
              have hnp : k2 ≠ "properties" := by
                intro e
                rw [e] at hsp
                simp [specialKey] at hsp
              have hszv : jsize v2 < jsize (jobj fs) := jsize_mem_obj hkv
              have hrv : regular v2 = true :=
                regularO_mem (reg_parts hreg).2.2.2 hkv
              cases hq : assocGet gs k2 with
              | none => rw [hq] at hm; simp at hm
              | some w2 =>
                rw [hq] at hm
                simp only [Option.map_some'] at hm
                simp only [hq]
                cases v2 with
                | jobj a =>
                  cases w2 with
                  | jobj b2 =>
                    have hm2 : stripAnn (jobj a) = stripAnn (jobj b2) := by
                      simpa [stripVal, hnp, hsp] using hm
                    exact ih (jobj a) (jobj b2) _ (by omega) hrv hm2
                  | jnull => simp [stripVal, hnp, hsp, stripAnn] at hm
                  | jbool b => simp [stripVal, hnp, hsp, stripAnn] at hm
                  | jnum m => simp [stripVal, hnp, hsp, stripAnn] at hm
                  | jstr s => simp [stripVal, hnp, hsp, stripAnn] at hm
                  | jarr ys => simp [stripVal, hnp, hsp, stripAnn] at hm
                | jnull => cases w2 <;> simp_all [stripVal, hnp, hsp, stripAnn]
                | jbool b => cases w2 <;> simp_all [stripVal, hnp, hsp, stripAnn]
                | jnum m => cases w2 <;> simp_all [stripVal, hnp, hsp, stripAnn]
                | jstr s => cases w2 <;> simp_all [stripVal, hnp, hsp, stripAnn]
                | jarr ys => cases w2 <;> simp_all [stripVal, hnp, hsp, stripAnn]
          · simp [hsp]
        rw [collectBreakingChanges_eq,
          rule1Seg_nil_keep hreg (fun t ht => by
            rw [getField_obj] at ht ⊢
            rw [← hTy]
            exact ht),
          rule2Seg_nil_same (by simp only [getField_obj]; exact hAPe.symm),
          rule3Seg_nil_sub hreg (by
            rw [reqListOf_obj, reqListOf_obj, hRq]
            exact fun x h => h),
          hr4, hr5]
        rfl

end SchemaDiff

namespace SchemaDiff

open JValue

/-- C8 (amended).  Annotation immunity holds at the object positions the
engine actually compares: if the old schema is regular and the two
schemas have the same image under `stripAnn` — i.e. they differ only in
`description`/`title`/`$id`/`$comment`/`examples` entries of objects
reached by the comparison (the nodes themselves, `properties`
sub-schemas at any depth, and object values of generic keywords) — then
the comparison yields no finding.  (Annotations buried inside
serialize-compared values — array values, or the values of
`additionalProperties` — are *not* immune, see the counterexample.) -/
theorem c8_annotation_immunity (oldS newS : JValue) (p : String)
    (hreg : regular oldS = true) (h : stripAnn oldS = stripAnn newS) :
    collectBreakingChanges oldS newS p = [] :=
  cbc_strip_nil (jsize oldS) oldS newS p (le_refl _) hreg h

/-- C8 witness: changing a `title`, removing a `description` inside a
property sub-schema, and adding a top-level `description` — across two
nesting levels — produces no finding. -/
theorem c8_witness :
    collectBreakingChanges
      (jobj [("title", jstr "v1"), ("minimum", jnum 1),
        ("properties", jobj [("a", jobj [("description", jstr "d"),
          ("type", jstr "string")])])])
      (jobj [("minimum", jnum 1), ("description", jstr "brand new"),
        ("properties", jobj [("a", jobj [("type", jstr "string"),
          ("title", jstr "t")])])])
      "" = [] :=
  c8_annotation_immunity
    (jobj [("title", jstr "v1"), ("minimum", jnum 1),
      ("properties", jobj [("a", jobj [("description", jstr "d"),
        ("type", jstr "string")])])])
    (jobj [("minimum", jnum 1), ("description", jstr "brand new"),
      ("properties", jobj [("a", jobj [("type", jstr "string"),
        ("title", jstr "t")])])])
    "" (by decide) rfl

/-- C8 counterexample: the claim "changing any of the annotation
keywords at any nesting level never produces a finding" fails for an
annotation nested inside the value of `additionalProperties`: rule 2
compares the whole value by `JSON.stringify`, so two schemas differing
only in that inner `description` are flagged. -/
theorem c8_counterexample :
    collectBreakingChanges
      (jobj [("additionalProperties", jobj [("description", jstr "a")])])
      (jobj [("additionalProperties", jobj [("description", jstr "b")])])
      "" =
      ["<root>: additionalProperties changed from \x7b\"description\":\"a\"\x7d to \x7b\"description\":\"b\"\x7d"] := by
  decide

end SchemaDiff
